import Mathlib

/-!
# radare2 WebAssembly bin plugin (`libr/bin/p/bin_wasm.c`)

A shallow embedding of the symbol and index-space synthesis layer of the
plugin: the export comparators, the export lookup, `symbols`, `entries`,
`sections`, the list of import records, `getoffset` and `getname`.

Conventions of the embedding.

* C unsigned fields (`ut8`, `ut32`, `ut64`) are natural numbers; a value that
  the C type can hold satisfies the matching `InRange` predicate.  The `ut32`
  counters of `symbols` are incremented modulo `2 ^ 32`.
* `st64` arithmetic is integer arithmetic wrapped to 64 bits by `st64`; a
  value returned as `int` is wrapped to 32 bits by `st32`.
* `RList` and `RPVector` are lists; a `NULL` list is `none`.
* Allocation (`R_NEW0`, `strdup`, `r_list_newf`) is assumed to succeed.
-/

namespace BinWasm

/-! ## Records of `wasm.h` that the plugin reads -/

/-- Export entry (`RBinWasmExportEntry`): the fields read by the plugin.
`sec_i` is the position of the entry in the export section. -/
structure RBinWasmExportEntry where
  sec_i : Nat
  field_str : String
  kind : Nat
  index : Nat
  deriving DecidableEq, Repr

/-- Import entry (`RBinWasmImportEntry`): the fields read by the plugin. -/
structure RBinWasmImportEntry where
  module_str : String
  field_str : String
  kind : Nat
  deriving DecidableEq, Repr

/-- Code entry (`RBinWasmCodeEntry`): start offset and length of a body. -/
structure RBinWasmCodeEntry where
  code : Nat
  len : Nat
  deriving DecidableEq, Repr

/-- The needle of the export search (`struct search_fields`). -/
structure search_fields where
  kind : Nat
  index : Nat
  deriving DecidableEq, Repr

/-- The values a `ut8 kind`, `ut32 index` and `ut32 sec_i` can hold. -/
def RBinWasmExportEntry.InRange (e : RBinWasmExportEntry) : Prop :=
  e.kind < 2 ^ 8 ∧ e.index < 2 ^ 32 ∧ e.sec_i < 2 ^ 32

instance (e : RBinWasmExportEntry) : Decidable e.InRange := by
  unfold RBinWasmExportEntry.InRange; exact inferInstance

/-- The values a `ut8 kind` and `ut32 index` of a needle can hold. -/
def search_fields.InRange (n : search_fields) : Prop :=
  n.kind < 2 ^ 8 ∧ n.index < 2 ^ 32

instance (n : search_fields) : Decidable n.InRange := by
  unfold search_fields.InRange; exact inferInstance

/-- External kind of a function (`wasm.h`). -/
def R_BIN_WASM_EXTERNALKIND_Function : Nat := 0

/-- External kind of a table (`wasm.h`). -/
def R_BIN_WASM_EXTERNALKIND_Table : Nat := 1

/-- External kind of a memory (`wasm.h`). -/
def R_BIN_WASM_EXTERNALKIND_Memory : Nat := 2

/-- External kind of a global (`wasm.h`). -/
def R_BIN_WASM_EXTERNALKIND_Global : Nat := 3

/-! ## Machine arithmetic -/

/-- Wrap an integer to a signed 64-bit value (`st64`). -/
def st64 (x : Int) : Int := (x + 2 ^ 63) % 2 ^ 64 - 2 ^ 63

/-- Wrap a natural number to an unsigned 32-bit value (`ut32`). -/
def ut32 (x : Nat) : Nat := x % 2 ^ 32

/-! ## The comparators -/

/-- Search comparator `_export_finder(exp, needle)`. -/
def _export_finder (exp : RBinWasmExportEntry) (needle : search_fields) : Int :=
  let diff := st64 ((exp.kind : Int) - (needle.kind : Int))
  if diff = 0 then
    let diff := st64 ((exp.index : Int) - (needle.index : Int))
    if diff = 0 then 0
    else if diff > 0 then 1 else -1
  else if diff > 0 then 1 else -1

/-- Sort comparator `_export_sorter(a, b)`. -/
def _export_sorter (a b : RBinWasmExportEntry) : Int :=
  let diff := st64 ((a.kind : Int) - (b.kind : Int))
  let diff :=
    if diff = 0 then
      let diff := st64 ((a.index : Int) - (b.index : Int))
      if diff = 0 then st64 ((a.sec_i : Int) - (b.sec_i : Int)) else diff
    else diff
  if diff > 0 then 1 else -1

/-! ## Vector helpers (`r_vector.h`) -/

/-- Insert `x` into a sorted list, after every element it compares greater
than. -/
def sortInsert {α : Type} (cmp : α → α → Int) (x : α) : List α → List α
  | [] => [x]
  | y :: ys => if cmp x y ≤ 0 then x :: y :: ys else y :: sortInsert cmp x ys

/-- Modelled from the spec: `r_pvector_sort` is defined in `libr/util/vector.c`,
which is not part of the sources at hand.  The spec (4.1) asks for a stable sort
by the comparator, ascending: an element stays before the elements that
followed it unless the comparator says it is greater. -/
def r_pvector_sort {α : Type} (v : List α) (cmp : α → α → Int) : List α :=
  match v with
  | [] => []
  | x :: xs => sortInsert cmp x (r_pvector_sort xs cmp)

/-- The halving loop of the binary search: the least position in `[lo, hi)`
whose element does not compare below the needle, `hi` if there is none. -/
def bsearchLoop {α β : Type} (v : List α) (needle : β) (cmp : α → β → Int) :
    Nat → Nat → Nat → Nat
  | 0, lo, _ => lo
  | fuel + 1, lo, hi =>
    if lo < hi then
      let mid := lo + (hi - lo) / 2
      match v[mid]? with
      | some e =>
        if cmp e needle < 0 then bsearchLoop v needle cmp fuel (mid + 1) hi
        else bsearchLoop v needle cmp fuel lo mid
      | none => lo
    else lo

/-- Modelled from the spec: `r_pvector_bsearch` is defined in
`libr/util/vector.c`, which is not part of the sources at hand.  The spec (4.1)
describes a binary search with the comparator `cmp (element, needle)` that
returns the position of a matching element, the first one when several match,
and a negative value when none matches. -/
def r_pvector_bsearch {α β : Type} (v : List α) (needle : β) (cmp : α → β → Int) : Int :=
  let n := bsearchLoop v needle cmp v.length 0 v.length
  match v[n]? with
  | some e => if cmp e needle = 0 then (n : Int) else -1
  | none => -1

/-- Element access `r_pvector_at`. -/
def r_pvector_at {α : Type} (v : List α) (n : Nat) : Option α := v[n]?

/-! ## Export lookup -/

/-- The lookup `find_export(exports, kind, index)`; `none` is `NULL`. -/
def find_export (exports : List RBinWasmExportEntry) (kind index : Nat) :
    Option RBinWasmExportEntry :=
  let sf : search_fields := { kind := kind, index := index }
  let n := r_pvector_bsearch exports sf _export_finder
  if n ≥ 0 then r_pvector_at exports n.toNat else none

/-! ## The module object and the records the plugin fills in -/

/-- Modelled from the spec: the decoded module (`RBinWasmObj`) as the raw module
view of section 6.  The getters `r_bin_wasm_get_codes`, `r_bin_wasm_get_imports`,
`r_bin_wasm_get_exports`, `r_bin_wasm_get_function_name` and
`r_bin_wasm_get_entrypoint` are defined in `libr/bin/format/wasm/wasm.c`, which
is not part of the sources at hand; each list is optional, the debug name of a
function index is optional and so is the explicit entrypoint. -/
structure RBinWasmObj where
  codes : Option (List RBinWasmCodeEntry)
  imports : Option (List RBinWasmImportEntry)
  exports : Option (List RBinWasmExportEntry)
  function_name : Nat → Option String
  entrypoint : Option Nat

/-- Getter of the code list; `none` is `NULL`. -/
def r_bin_wasm_get_codes (bin : RBinWasmObj) : Option (List RBinWasmCodeEntry) := bin.codes

/-- Getter of the import list; `none` is `NULL`. -/
def r_bin_wasm_get_imports (bin : RBinWasmObj) : Option (List RBinWasmImportEntry) :=
  bin.imports

/-- Getter of the export vector; `none` is `NULL`. -/
def r_bin_wasm_get_exports (bin : RBinWasmObj) : Option (List RBinWasmExportEntry) :=
  bin.exports

/-- Debug name of a function index; `none` is `NULL`. -/
def r_bin_wasm_get_function_name (bin : RBinWasmObj) (idx : Nat) : Option String :=
  bin.function_name idx

/-- Modelled from the spec: the entrypoint getter returns the explicit
entrypoint, and zero when the module has none. -/
def r_bin_wasm_get_entrypoint (bin : RBinWasmObj) : Nat := bin.entrypoint.getD 0

/-- Symbol record (`RBinSymbol`): the fields set by the plugin.  A string field
left `NULL` by `R_NEW0` is `none`. -/
structure RBinSymbol where
  name : Option String
  libname : Option String
  is_imported : Bool
  forwarder : Option String
  bind : Option String
  type : Option String
  size : Nat
  vaddr : Nat
  paddr : Nat
  ordinal : Nat
  deriving DecidableEq, Repr

/-- Address record (`RBinAddr`): the fields set by the plugin. -/
structure RBinAddr where
  paddr : Nat
  vaddr : Nat
  deriving DecidableEq, Repr

/-- Type string of a function (`r_bin.h`). -/
def R_BIN_TYPE_FUNC_STR : String := "FUNC"

/-- Binding string of a global symbol (`r_bin.h`). -/
def R_BIN_BIND_GLOBAL_STR : String := "GLOBAL"

/-- The value `-1` stored in a `ut64` field. -/
def UT64_MAX : Nat := 2 ^ 64 - 1

/-- Conversion `%d` of a `ut32` argument: the decimal of the value read as a
signed 32-bit integer. -/
def fmt_d (n : Nat) : String :=
  if n < 2 ^ 31 then toString n else "-" ++ toString (2 ^ 32 - n)

/-! ## `symbols` -/

/-- The local counters of `symbols`: the four index spaces and the ordinal `i`. -/
structure IndexSpace where
  fcn_idx : Nat
  table_idx : Nat
  mem_idx : Nat
  global_idx : Nat
  i : Nat
  deriving DecidableEq, Repr

/-- The symbol that one iteration of the import loop appends. -/
def import_symbol (imp : RBinWasmImportEntry) (i : Nat) : RBinSymbol :=
  { name := some imp.field_str
    libname := some imp.module_str
    is_imported := true
    forwarder := some "NONE"
    bind := some "NONE"
    type :=
      if imp.kind = R_BIN_WASM_EXTERNALKIND_Function then some R_BIN_TYPE_FUNC_STR
      else if imp.kind = R_BIN_WASM_EXTERNALKIND_Table then some "TABLE"
      else if imp.kind = R_BIN_WASM_EXTERNALKIND_Memory then some "MEMORY"
      else if imp.kind = R_BIN_WASM_EXTERNALKIND_Global then some R_BIN_BIND_GLOBAL_STR
      else none
    size := 0
    vaddr := UT64_MAX
    paddr := UT64_MAX
    ordinal := i }

/-- The counters after one iteration of the import loop. -/
def import_count (st : IndexSpace) (imp : RBinWasmImportEntry) : IndexSpace :=
  let st :=
    if imp.kind = R_BIN_WASM_EXTERNALKIND_Function then
      { st with fcn_idx := ut32 (st.fcn_idx + 1) }
    else if imp.kind = R_BIN_WASM_EXTERNALKIND_Table then
      { st with table_idx := ut32 (st.table_idx + 1) }
    else if imp.kind = R_BIN_WASM_EXTERNALKIND_Memory then
      { st with mem_idx := ut32 (st.mem_idx + 1) }
    else if imp.kind = R_BIN_WASM_EXTERNALKIND_Global then
      { st with global_idx := ut32 (st.global_idx + 1) }
    else st
  { st with i := ut32 (st.i + 1) }

/-- The import loop of `symbols`: the counters it leaves and the symbols it
appends, in order. -/
def symbols_imports (st : IndexSpace) :
    List RBinWasmImportEntry → IndexSpace × List RBinSymbol
  | [] => (st, [])
  | imp :: rest =>
    let ptr := import_symbol imp st.i
    let r := symbols_imports (import_count st imp) rest
    (r.1, ptr :: r.2)

/-- The symbol that one iteration of the code loop appends, for the function
index `fcn_idx` and the ordinal `i`. -/
def code_symbol (bin : RBinWasmObj) (exports : List RBinWasmExportEntry)
    (fcn_idx i : Nat) (func : RBinWasmCodeEntry) : RBinSymbol :=
  match find_export exports R_BIN_WASM_EXTERNALKIND_Function fcn_idx with
  | some exp =>
    { name := some exp.field_str
      libname := none
      is_imported := false
      forwarder := some "NONE"
      bind := some R_BIN_BIND_GLOBAL_STR
      type := some R_BIN_TYPE_FUNC_STR
      size := func.len
      vaddr := func.code
      paddr := func.code
      ordinal := i }
  | none =>
    { name :=
        match r_bin_wasm_get_function_name bin fcn_idx with
        | some name => some name
        | none => some ("fcn." ++ fmt_d fcn_idx)
      libname := none
      is_imported := false
      forwarder := some "NONE"
      bind := some "NONE"
      type := some R_BIN_TYPE_FUNC_STR
      size := func.len
      vaddr := func.code
      paddr := func.code
      ordinal := i }

/-- The code loop of `symbols`, started with function index `fcn_idx` and
ordinal `i`. -/
def symbols_codes (bin : RBinWasmObj) (exports : List RBinWasmExportEntry) :
    Nat → Nat → List RBinWasmCodeEntry → List RBinSymbol
  | _, _, [] => []
  | fcn_idx, i, func :: rest =>
    code_symbol bin exports fcn_idx i func ::
      symbols_codes bin exports (ut32 (fcn_idx + 1)) (ut32 (i + 1)) rest

/-- The list `symbols` returns for a module object; `none` is `NULL`. -/
def symbols (bin : RBinWasmObj) : Option (List RBinSymbol) :=
  match r_bin_wasm_get_codes bin, r_bin_wasm_get_imports bin, r_bin_wasm_get_exports bin with
  | some codes, some imports, some exports =>
    let exports := r_pvector_sort exports _export_sorter
    let st : IndexSpace := { fcn_idx := 0, table_idx := 0, mem_idx := 0, global_idx := 0, i := 0 }
    let r := symbols_imports st imports
    some (r.2 ++ symbols_codes bin exports r.1.fcn_idx r.1.i codes)
  | _, _, _ => none

/-! ## `entries` -/

/-- The list `entries` returns for a module object; `none` is `NULL`. -/
def entries (bin : RBinWasmObj) : Option (List RBinAddr) :=
  let addr := r_bin_wasm_get_entrypoint bin
  if addr = 0 then
    let addr :=
      match r_bin_wasm_get_codes bin with
      | some (func :: _) => func.code
      | _ => addr
    if addr = 0 then none
    else some [{ paddr := addr, vaddr := addr }]
  else some [{ paddr := addr, vaddr := addr }]

/-! ## `sections` -/

/-- Section entry (`RBinWasmSection`): the fields read by the plugin. -/
structure RBinWasmSection where
  name : String
  id : Nat
  payload_len : Nat
  offset : Nat
  deriving DecidableEq, Repr

/-- Section id of the memory section (`wasm.h`). -/
def R_BIN_WASM_SECTION_MEMORY : Nat := 5

/-- Section id of the data section (`wasm.h`). -/
def R_BIN_WASM_SECTION_DATA : Nat := 11

/-- Section record (`RBinSection`): the fields set by the plugin. -/
structure RBinSection where
  name : Option String
  is_data : Bool
  size : Nat
  vsize : Nat
  vaddr : Nat
  paddr : Nat
  add : Bool
  perm : Nat
  deriving DecidableEq, Repr

/-- The record that one iteration of the loop of `sections` appends. -/
def section_record (sec : RBinWasmSection) : RBinSection :=
  { name := some sec.name
    is_data :=
      if sec.id = R_BIN_WASM_SECTION_DATA ∨ sec.id = R_BIN_WASM_SECTION_MEMORY then true
      else false
    size := sec.payload_len
    vsize := sec.payload_len
    vaddr := sec.offset
    paddr := sec.offset
    add := true
    perm := 0 }

/-- The list `sections` returns; `secs` is what `r_bin_wasm_get_sections (bin)`
returned, and `none` is `NULL`. -/
def sections (secs : Option (List RBinWasmSection)) : Option (List RBinSection) :=
  match secs with
  | some secs => some (secs.map section_record)
  | none => none

/-! ## `imports` -/

/-- Import record (`RBinImport`): the fields set by the plugin. -/
structure RBinImport where
  name : Option String
  classname : Option String
  ordinal : Nat
  bind : Option String
  type : Option String
  deriving DecidableEq, Repr

/-- The record that one iteration of the loop of `imports` appends, for the
value `i` of the local counter. -/
def import_record (imp : RBinWasmImportEntry) (i : Nat) : RBinImport :=
  { name := some imp.field_str
    classname := some imp.module_str
    ordinal := i
    bind := some "NONE"
    type :=
      if imp.kind = R_BIN_WASM_EXTERNALKIND_Function then some "FUNC"
      else if imp.kind = R_BIN_WASM_EXTERNALKIND_Table then some "TABLE"
      else if imp.kind = R_BIN_WASM_EXTERNALKIND_Memory then some "MEM"
      else if imp.kind = R_BIN_WASM_EXTERNALKIND_Global then some "GLOBAL"
      else none }

/-- The loop of `imports`, started with the counter `i`; the loop body does not
change `i`. -/
def imports_loop (i : Nat) : List RBinWasmImportEntry → List RBinImport
  | [] => []
  | imp :: rest => import_record imp i :: imports_loop i rest

/-- The list `imports` returns for a module object; `none` is `NULL`. -/
def imports (bin : RBinWasmObj) : Option (List RBinImport) :=
  match r_bin_wasm_get_imports bin with
  | some l => some (imports_loop 0 l)
  | none => none

/-! ## `getoffset` -/

/-- Conversion of an integer to `int` (signed 32 bits). -/
def st32 (x : Int) : Int := (x + 2 ^ 31) % 2 ^ 32 - 2 ^ 31

/-- Modelled from the spec: `r_list_get_n` is defined in `libr/util/list.c`,
which is not part of the sources at hand.  The spec (4.6) describes a direct
position lookup in declaration order; a position outside the list gives `NULL`,
here `none`. -/
def r_list_get_n {α : Type} (l : List α) (n : Int) : Option α :=
  if n < 0 then none else l[n.toNat]?

/-- The value `get_fcn_offset_from_id (bf, fcn_idx)` returns, an `int`. -/
def get_fcn_offset_from_id (bin : RBinWasmObj) (fcn_idx : Int) : Int :=
  match r_bin_wasm_get_codes bin with
  | some codes =>
    match r_list_get_n codes fcn_idx with
    | some func => st32 func.code
    | none => -1
  | none => -1

/-- The tag of function queries, the character `f`. -/
def TYPE_FCN : Int := 102

/-- The value `getoffset (bf, type, idx)` returns, an `int`. -/
def getoffset (bin : RBinWasmObj) (type idx : Int) : Int :=
  if type = TYPE_FCN then get_fcn_offset_from_id bin idx
  else -1

/-- The value `getname (bf, type, idx, sd)` returns; `none` is `NULL`.  The
`int idx` is passed on as the `ut32` index of the debug-name lookup. -/
def getname (bin : RBinWasmObj) (type idx : Int) : Option String :=
  if type = TYPE_FCN then
    match r_bin_wasm_get_function_name bin (idx % 2 ^ 32).toNat with
    | some r => some r
    | none => none
  else none

/-! ## The export vector after `symbols` -/

/-- The export vector of the module once `symbols` has run.  The vector that
`r_bin_wasm_get_exports` hands out is the one the module keeps, and
`r_pvector_sort` sorts it in place; on the `bad_alloc` path it is released
(`r_pvector_free`), which leaves no vector, here `none`. -/
def symbols_exports (bin : RBinWasmObj) : Option (List RBinWasmExportEntry) :=
  match r_bin_wasm_get_codes bin, r_bin_wasm_get_imports bin, r_bin_wasm_get_exports bin with
  | some _, some _, some exports => some (r_pvector_sort exports _export_sorter)
  | _, _, _ => none

/-! ## The order of the export index -/

/-- Order of two export entries by the key (kind, index, position in the
section), ascending. -/
def keyLe (a b : RBinWasmExportEntry) : Prop :=
  a.kind < b.kind ∨ (a.kind = b.kind ∧
    (a.index < b.index ∨ (a.index = b.index ∧ a.sec_i ≤ b.sec_i)))

instance (a b : RBinWasmExportEntry) : Decidable (keyLe a b) := by
  unfold keyLe; exact inferInstance

/-- The key (kind, index, position in the section) of an export entry. -/
def exportKey (e : RBinWasmExportEntry) : Nat × Nat × Nat := (e.kind, e.index, e.sec_i)

/-- Strict order of two export entries by their key. -/
def keyLt (a b : RBinWasmExportEntry) : Prop :=
  a.kind < b.kind ∨ (a.kind = b.kind ∧
    (a.index < b.index ∨ (a.index = b.index ∧ a.sec_i < b.sec_i)))

instance (a b : RBinWasmExportEntry) : Decidable (keyLt a b) := by
  unfold keyLt; exact inferInstance

/-! ## Counting the function imports -/

/-- The number of imports of kind Function. -/
def function_imports (imports : List RBinWasmImportEntry) : Nat :=
  imports.countP (fun imp => imp.kind = R_BIN_WASM_EXTERNALKIND_Function)

/-! ## Example inputs -/

/-- An export sequence with two entries for (Function, 7). -/
def exportsWithTie : List RBinWasmExportEntry :=
  [⟨0, "a", 1, 5⟩, ⟨2, "c", 0, 7⟩, ⟨1, "b", 0, 7⟩, ⟨3, "d", 0, 2⟩]

/-- An export sequence in which three entries share (Function, 7). -/
def exportsSharing : List RBinWasmExportEntry :=
  [⟨5, "x", 0, 7⟩, ⟨1, "y", 0, 7⟩, ⟨2, "z", 0, 7⟩, ⟨0, "w", 0, 3⟩]

/-- The module of the scenario of the spec: one function import, one export
of function index 1, one code body. -/
def scenarioModule : RBinWasmObj :=
  { codes := some [⟨0x100, 10⟩]
    imports := some [⟨"env", "log", 0⟩]
    exports := some [⟨0, "main", 0, 1⟩]
    function_name := fun _ => none
    entrypoint := none }

/-- The module of the scenario with an empty export list. -/
def scenarioNoExports : RBinWasmObj :=
  { codes := some [⟨0x100, 10⟩]
    imports := some [⟨"env", "log", 0⟩]
    exports := some []
    function_name := fun _ => none
    entrypoint := none }

/-- Imports of the four kinds, one of them a function. -/
def mixedImports : List RBinWasmImportEntry :=
  [⟨"env", "mem", 2⟩, ⟨"env", "log", 0⟩, ⟨"env", "tab", 1⟩, ⟨"env", "g", 3⟩]

/-- Three code bodies. -/
def mixedCodes : List RBinWasmCodeEntry := [⟨0x100, 10⟩, ⟨0x10a, 4⟩, ⟨0x10e, 6⟩]

/-- One export, of the function index 3. -/
def mixedExports : List RBinWasmExportEntry := [⟨0, "main", 0, 3⟩]

/-- A module with imports of the four kinds and three code bodies: the first
has a debug name, the second neither export nor debug name, the third is
exported. -/
def mixedModule : RBinWasmObj :=
  { codes := some mixedCodes
    imports := some mixedImports
    exports := some mixedExports
    function_name := fun n => if n = 1 then some "helper" else none
    entrypoint := none }

/-- A module whose code list is absent. -/
def moduleWithoutCodes : RBinWasmObj :=
  { codes := none
    imports := some [⟨"env", "log", 0⟩]
    exports := some [⟨0, "main", 0, 1⟩]
    function_name := fun _ => none
    entrypoint := none }

/-- A module whose export list is absent. -/
def moduleWithoutExports : RBinWasmObj :=
  { codes := some [⟨0x100, 10⟩]
    imports := some [⟨"env", "log", 0⟩]
    exports := none
    function_name := fun _ => none
    entrypoint := none }

/-- A second module whose export list is absent. -/
def emptyModuleWithoutExports : RBinWasmObj :=
  { codes := some []
    imports := some []
    exports := none
    function_name := fun _ => none
    entrypoint := none }

/-- A module without entrypoint whose first code body starts at offset zero. -/
def moduleCodeAtZero : RBinWasmObj :=
  { codes := some [⟨0, 4⟩, ⟨0x20, 4⟩]
    imports := some []
    exports := some []
    function_name := fun _ => none
    entrypoint := none }

/-- A module with an explicit entrypoint. -/
def moduleWithEntry : RBinWasmObj :=
  { codes := some [⟨0x100, 10⟩]
    imports := some []
    exports := some []
    function_name := fun _ => none
    entrypoint := some 0x40 }

/-- Sections of several ids, a memory section and a data section among
them. -/
def someSections : List RBinWasmSection :=
  [⟨"type", 1, 7, 10⟩, ⟨"memory", 5, 3, 40⟩, ⟨"code", 10, 30, 50⟩, ⟨"data", 11, 9, 90⟩]

/-- An export sequence that is not in the order of `_export_sorter`. -/
def exportsUnsorted : List RBinWasmExportEntry := [⟨0, "b", 0, 2⟩, ⟨1, "a", 0, 1⟩]

/-- A module whose export vector is not in the order of `_export_sorter`. -/
def moduleUnsortedExports : RBinWasmObj :=
  { codes := some [⟨0x100, 10⟩, ⟨0x10a, 4⟩, ⟨0x10e, 6⟩]
    imports := some []
    exports := some exportsUnsorted
    function_name := fun _ => none
    entrypoint := none }

/-- A module whose only code body starts at the offset `0xffffffff`. -/
def moduleCodeAtMax : RBinWasmObj :=
  { codes := some [⟨0xffffffff, 2⟩]
    imports := some []
    exports := some []
    function_name := fun _ => none
    entrypoint := none }

/-! ## Properties of the comparators -/

theorem st64_of_small (x : Int) (h1 : -(2 ^ 63) ≤ x) (h2 : x < 2 ^ 63) : st64 x = x := by
  unfold st64
  omega

theorem st64_sub_of_lt (a b : Nat) (ha : a < 2 ^ 32) (hb : b < 2 ^ 32) :
    st64 ((a : Int) - (b : Int)) = (a : Int) - (b : Int) := by
  apply st64_of_small <;> omega

theorem export_finder_neg (e : RBinWasmExportEntry) (n : search_fields)
    (he : e.InRange) (hn : n.InRange) :
    _export_finder e n < 0 ↔ (e.kind < n.kind ∨ (e.kind = n.kind ∧ e.index < n.index)) := by
  obtain ⟨h1, h2, _⟩ := he
  obtain ⟨h3, h4⟩ := hn
  unfold _export_finder
  rw [st64_sub_of_lt _ _ (by omega) (by omega), st64_sub_of_lt _ _ h2 h4]
  simp only []
  split_ifs <;> constructor <;> intro h <;> omega

theorem export_finder_zero (e : RBinWasmExportEntry) (n : search_fields)
    (he : e.InRange) (hn : n.InRange) :
    _export_finder e n = 0 ↔ (e.kind = n.kind ∧ e.index = n.index) := by
  obtain ⟨h1, h2, _⟩ := he
  obtain ⟨h3, h4⟩ := hn
  unfold _export_finder
  rw [st64_sub_of_lt _ _ (by omega) (by omega), st64_sub_of_lt _ _ h2 h4]
  simp only []
  split_ifs <;> constructor <;> intro h <;> first | omega | contradiction

theorem export_sorter_le (a b : RBinWasmExportEntry) (ha : a.InRange) (hb : b.InRange) :
    _export_sorter a b ≤ 0 ↔ keyLe a b := by
  obtain ⟨h1, h2, h3⟩ := ha
  obtain ⟨h4, h5, h6⟩ := hb
  unfold _export_sorter keyLe
  rw [st64_sub_of_lt _ _ (by omega) (by omega), st64_sub_of_lt _ _ h2 h5,
    st64_sub_of_lt _ _ h3 h6]
  simp only []
  split_ifs <;> constructor <;> intro h <;> omega

theorem keyLe_total (a b : RBinWasmExportEntry) : keyLe a b ∨ keyLe b a := by
  unfold keyLe; omega

theorem keyLe_trans {a b c : RBinWasmExportEntry} (h1 : keyLe a b) (h2 : keyLe b c) :
    keyLe a c := by
  unfold keyLe at *; omega

/-! ## Properties of the sort -/

theorem sortInsert_perm {α : Type} (cmp : α → α → Int) (x : α) (l : List α) :
    (sortInsert cmp x l).Perm (x :: l) := by
  induction l with
  | nil => exact List.Perm.refl _
  | cons y ys ih =>
    unfold sortInsert
    split_ifs
    · exact List.Perm.refl _
    · exact (List.Perm.cons y ih).trans (List.Perm.swap x y ys)

theorem r_pvector_sort_perm {α : Type} (v : List α) (cmp : α → α → Int) :
    (r_pvector_sort v cmp).Perm v := by
  induction v with
  | nil => exact List.Perm.refl _
  | cons x xs ih =>
    unfold r_pvector_sort
    exact (sortInsert_perm cmp x _).trans (List.Perm.cons x ih)

theorem mem_r_pvector_sort {α : Type} (v : List α) (cmp : α → α → Int) (e : α) :
    e ∈ r_pvector_sort v cmp ↔ e ∈ v :=
  (r_pvector_sort_perm v cmp).mem_iff

theorem sortInsert_sorted (x : RBinWasmExportEntry) (l : List RBinWasmExportEntry)
    (hx : x.InRange) (hl : ∀ y ∈ l, y.InRange) (hs : l.Pairwise keyLe) :
    (sortInsert _export_sorter x l).Pairwise keyLe := by
  induction l with
  | nil => simp [sortInsert]
  | cons y ys ih =>
    have hy : y.InRange := hl y (List.mem_cons_self y ys)
    have hys : ∀ z ∈ ys, z.InRange := fun z hz => hl z (List.mem_cons_of_mem y hz)
    obtain ⟨hyz, hrest⟩ := List.pairwise_cons.mp hs
    unfold sortInsert
    split_ifs with hc
    · have hxy : keyLe x y := (export_sorter_le x y hx hy).mp hc
      refine List.pairwise_cons.mpr ⟨?_, hs⟩
      intro z hz
      rcases List.mem_cons.mp hz with rfl | hz
      · exact hxy
      · exact keyLe_trans hxy (hyz z hz)
    · have hyx : keyLe y x := by
        rcases keyLe_total x y with h | h
        · exact absurd ((export_sorter_le x y hx hy).mpr h) hc
        · exact h
      refine List.pairwise_cons.mpr ⟨?_, ih hys hrest⟩
      intro z hz
      rcases List.mem_cons.mp ((sortInsert_perm _export_sorter x ys).mem_iff.mp hz) with rfl | hz
      · exact hyx
      · exact hyz z hz

theorem r_pvector_sort_sorted (v : List RBinWasmExportEntry) (hv : ∀ e ∈ v, e.InRange) :
    (r_pvector_sort v _export_sorter).Pairwise keyLe := by
  induction v with
  | nil => simp [r_pvector_sort]
  | cons x xs ih =>
    unfold r_pvector_sort
    have hxs : ∀ e ∈ xs, e.InRange := fun e he => hv e (List.mem_cons_of_mem x he)
    refine sortInsert_sorted x _ (hv x (List.mem_cons_self x xs)) ?_ (ih hxs)
    intro y hy
    exact hxs y ((mem_r_pvector_sort xs _export_sorter y).mp hy)

/-! ## Properties of the binary search -/

theorem bsearchLoop_spec {α β : Type} (v : List α) (needle : β) (cmp : α → β → Int)
    (hmono : ∀ (i j : Nat) (a b : α), i ≤ j → v[i]? = some a → v[j]? = some b →
      cmp b needle < 0 → cmp a needle < 0) :
    ∀ fuel lo hi, lo ≤ hi → hi ≤ v.length → hi - lo ≤ fuel →
      (∀ (i : Nat) (a : α), i < lo → v[i]? = some a → cmp a needle < 0) →
      (∀ (i : Nat) (a : α), hi ≤ i → v[i]? = some a → ¬ cmp a needle < 0) →
      (∀ (i : Nat) (a : α), i < bsearchLoop v needle cmp fuel lo hi → v[i]? = some a →
        cmp a needle < 0) ∧
      (∀ (i : Nat) (a : α), bsearchLoop v needle cmp fuel lo hi ≤ i → v[i]? = some a →
        ¬ cmp a needle < 0) := by
  intro fuel
  induction fuel with
  | zero =>
    intro lo hi h1 _ h3 hlo hhi
    have : lo = hi := by omega
    subst this
    exact ⟨hlo, hhi⟩
  | succ fuel ih =>
    intro lo hi h1 h2 h3 hlo hhi
    unfold bsearchLoop
    by_cases hlt : lo < hi
    · rw [if_pos hlt]
      have hmid : lo + (hi - lo) / 2 < v.length := by omega
      simp only [List.getElem?_eq_getElem hmid]
      split_ifs with hc
      · refine ih _ _ (by omega) h2 (by omega) ?_ hhi
        intro i a hi' ha
        exact hmono i _ a _ (by omega) ha (List.getElem?_eq_getElem hmid) hc
      · refine ih _ _ (by omega) (by omega) (by omega) hlo ?_
        intro i a hi' ha hneg
        exact hc (hmono _ i _ a hi' (List.getElem?_eq_getElem hmid) ha hneg)
    · rw [if_neg hlt]
      have : lo = hi := by omega
      subst this
      exact ⟨hlo, hhi⟩

/-- The lookup returns the element at the position the loop stops at, when that
element matches the needle. -/
theorem find_export_eq (v : List RBinWasmExportEntry) (k i : Nat) :
    find_export v k i =
      match v[bsearchLoop v (search_fields.mk k i) _export_finder v.length 0 v.length]? with
      | some e => if _export_finder e (search_fields.mk k i) = 0 then some e else none
      | none => none := by
  unfold find_export r_pvector_bsearch r_pvector_at
  simp only []
  cases hget : v[bsearchLoop v (search_fields.mk k i) _export_finder v.length 0 v.length]? with
  | none => simp
  | some e =>
    by_cases hc : _export_finder e (search_fields.mk k i) = 0
    · simp [hc, hget]
    · simp [hc]

theorem sorted_getElem {v : List RBinWasmExportEntry} (hs : v.Pairwise keyLe)
    {p q : Nat} {a b : RBinWasmExportEntry} (hpq : p < q)
    (ha : v[p]? = some a) (hb : v[q]? = some b) : keyLe a b := by
  obtain ⟨hp, rfl⟩ := List.getElem?_eq_some.mp ha
  obtain ⟨hq, rfl⟩ := List.getElem?_eq_some.mp hb
  exact List.pairwise_iff_getElem.mp hs p q hp hq hpq

/-- Along a sorted export vector the entries below a needle come first. -/
theorem export_finder_mono {v : List RBinWasmExportEntry} (hs : v.Pairwise keyLe)
    (hv : ∀ e ∈ v, e.InRange) (n : search_fields) (hn : n.InRange)
    (p q : Nat) (a b : RBinWasmExportEntry) (hpq : p ≤ q)
    (ha : v[p]? = some a) (hb : v[q]? = some b) (hlt : _export_finder b n < 0) :
    _export_finder a n < 0 := by
  rcases Nat.eq_or_lt_of_le hpq with rfl | hlt'
  · have : a = b := by rw [ha] at hb; exact Option.some.inj hb
    exact this ▸ hlt
  · have hk := sorted_getElem hs hlt' ha hb
    have hra := hv a (List.getElem?_mem ha)
    have hrb := hv b (List.getElem?_mem hb)
    rw [export_finder_neg a n hra hn]
    rw [export_finder_neg b n hrb hn] at hlt
    unfold keyLe at hk
    omega

/-- What the lookup answers on a sorted export vector: the entry it returns is
an entry of the vector with the kind and index asked for, and no entry with that
kind and index has a smaller position in the export section. -/
theorem find_export_some_sorted {v : List RBinWasmExportEntry} (hs : v.Pairwise keyLe)
    (hv : ∀ e ∈ v, e.InRange) (k i : Nat) (hk : k < 2 ^ 8) (hi : i < 2 ^ 32)
    (r : RBinWasmExportEntry) (hr : find_export v k i = some r) :
    r ∈ v ∧ r.kind = k ∧ r.index = i ∧
      ∀ e ∈ v, e.kind = k → e.index = i → r.sec_i ≤ e.sec_i := by
  have hn : (search_fields.mk k i).InRange := ⟨hk, hi⟩
  obtain ⟨hlow, _⟩ := bsearchLoop_spec v (search_fields.mk k i) _export_finder
    (export_finder_mono hs hv _ hn) v.length 0 v.length (Nat.zero_le _) (Nat.le_refl _)
    (by omega) (fun i a h _ => absurd h (Nat.not_lt_zero i))
    (fun i a h ha => by
      have := (List.getElem?_eq_some.mp ha).1
      omega)
  rw [find_export_eq] at hr
  cases hget : v[bsearchLoop v (search_fields.mk k i) _export_finder v.length 0 v.length]? with
  | none => rw [hget] at hr; exact absurd hr (by simp)
  | some e =>
    rw [hget] at hr
    by_cases hc : _export_finder e (search_fields.mk k i) = 0
    · simp only [hc, if_true] at hr
      have her : e = r := Option.some.inj hr
      subst her
      have hmem : e ∈ v := List.getElem?_mem hget
      have hz := (export_finder_zero e _ (hv e hmem) hn).mp hc
      refine ⟨hmem, hz.1, hz.2, ?_⟩
      intro e' he' hk' hi'
      obtain ⟨p, hp⟩ := List.mem_iff_getElem?.mp he'
      have hnb : ¬ _export_finder e' (search_fields.mk k i) < 0 := by
        rw [(export_finder_zero e' _ (hv e' he') hn).mpr ⟨hk', hi'⟩]
        decide
      have hge : bsearchLoop v (search_fields.mk k i) _export_finder v.length 0 v.length ≤ p := by
        by_contra hcon
        exact hnb (hlow p e' (by omega) hp)
      rcases Nat.eq_or_lt_of_le hge with heq | hlt
      · rw [heq, hp] at hget
        have : e' = e := Option.some.inj hget
        rw [this]
      · have hkl := sorted_getElem hs hlt hget hp
        unfold keyLe at hkl
        have h1 := hz.1
        have h2 := hz.2
        simp only [] at h1 h2
        omega
    · simp only [hc, if_false] at hr
      exact absurd hr (by simp)

/-- The lookup finds an entry on a sorted export vector whenever the vector has
an entry with the kind and index asked for. -/
theorem find_export_isSome_sorted {v : List RBinWasmExportEntry} (hs : v.Pairwise keyLe)
    (hv : ∀ e ∈ v, e.InRange) (k i : Nat) (hk : k < 2 ^ 8) (hi : i < 2 ^ 32)
    (e' : RBinWasmExportEntry) (he' : e' ∈ v) (hk' : e'.kind = k) (hi' : e'.index = i) :
    ∃ r, find_export v k i = some r := by
  have hn : (search_fields.mk k i).InRange := ⟨hk, hi⟩
  obtain ⟨hlow, hhigh⟩ := bsearchLoop_spec v (search_fields.mk k i) _export_finder
    (export_finder_mono hs hv _ hn) v.length 0 v.length (Nat.zero_le _) (Nat.le_refl _)
    (by omega) (fun i a h _ => absurd h (Nat.not_lt_zero i))
    (fun i a h ha => by
      have := (List.getElem?_eq_some.mp ha).1
      omega)
  obtain ⟨p, hp⟩ := List.mem_iff_getElem?.mp he'
  have hplt : p < v.length := (List.getElem?_eq_some.mp hp).1
  have hz' : _export_finder e' (search_fields.mk k i) = 0 :=
    (export_finder_zero e' _ (hv e' he') hn).mpr ⟨hk', hi'⟩
  have hnb : ¬ _export_finder e' (search_fields.mk k i) < 0 := by
    rw [hz']; decide
  have hge : bsearchLoop v (search_fields.mk k i) _export_finder v.length 0 v.length ≤ p := by
    by_contra hcon
    exact hnb (hlow p e' (by omega) hp)
  have hnlt : bsearchLoop v (search_fields.mk k i) _export_finder v.length 0 v.length
      < v.length := by omega
  rw [find_export_eq]
  generalize bsearchLoop v (search_fields.mk k i) _export_finder v.length 0 v.length = m at *
  obtain ⟨e, hget⟩ : ∃ e, v[m]? = some e := ⟨v[m], List.getElem?_eq_getElem hnlt⟩
  have hmem := List.getElem?_mem hget
  have hnot := hhigh m e (Nat.le_refl _) hget
  have hzero : _export_finder e (search_fields.mk k i) = 0 := by
    rcases Nat.eq_or_lt_of_le hge with heq | hlt
    · subst heq
      have : e = e' := by rw [hget] at hp; exact Option.some.inj hp
      rw [this]; exact hz'
    · have hkl := sorted_getElem hs hlt hget hp
      rw [export_finder_neg _ _ (hv _ hmem) hn] at hnot
      rw [export_finder_zero _ _ (hv _ hmem) hn]
      unfold keyLe at hkl
      simp only [] at hnot ⊢
      omega
  refine ⟨e, ?_⟩
  rw [hget]
  simp only [hzero, if_true]

/-! ## Properties of the loops of `symbols` -/

theorem import_count_i (st : IndexSpace) (imp : RBinWasmImportEntry) :
    (import_count st imp).i = ut32 (st.i + 1) := by
  unfold import_count
  simp only []
  split_ifs <;> rfl

theorem import_count_fcn_idx (st : IndexSpace) (imp : RBinWasmImportEntry) :
    (import_count st imp).fcn_idx =
      if imp.kind = R_BIN_WASM_EXTERNALKIND_Function then ut32 (st.fcn_idx + 1)
      else st.fcn_idx := by
  unfold import_count
  simp only []
  split_ifs <;> rfl

theorem symbols_imports_length (st : IndexSpace) (l : List RBinWasmImportEntry) :
    (symbols_imports st l).2.length = l.length := by
  induction l generalizing st with
  | nil => rfl
  | cons imp rest ih => simp [symbols_imports, ih]

theorem symbols_imports_getElem (l : List RBinWasmImportEntry) :
    ∀ (st : IndexSpace) (j : Nat) (imp : RBinWasmImportEntry), st.i < 2 ^ 32 →
      l[j]? = some imp →
      (symbols_imports st l).2[j]? = some (import_symbol imp ((st.i + j) % 2 ^ 32)) := by
  induction l with
  | nil => intro st j imp _ h; simp at h
  | cons x rest ih =>
    intro st j imp hst h
    cases j with
    | zero =>
      simp only [List.getElem?_cons_zero, Option.some.injEq] at h
      subst h
      simp only [symbols_imports, List.getElem?_cons_zero, Nat.add_zero]
      rw [Nat.mod_eq_of_lt hst]
    | succ j =>
      simp only [List.getElem?_cons_succ] at h
      simp only [symbols_imports, List.getElem?_cons_succ]
      have hlt : (import_count st x).i < 2 ^ 32 := by
        rw [import_count_i]; unfold ut32; exact Nat.mod_lt _ (by norm_num)
      rw [ih (import_count st x) j imp hlt h, import_count_i]
      unfold ut32
      congr 2
      omega

theorem symbols_imports_i (l : List RBinWasmImportEntry) :
    ∀ (st : IndexSpace), st.i < 2 ^ 32 →
      (symbols_imports st l).1.i = (st.i + l.length) % 2 ^ 32 := by
  induction l with
  | nil =>
    intro st hst
    simp only [symbols_imports, List.length_nil, Nat.add_zero]
    omega
  | cons x rest ih =>
    intro st _
    have hlt : (import_count st x).i < 2 ^ 32 := by
      rw [import_count_i]; unfold ut32; exact Nat.mod_lt _ (by norm_num)
    simp only [symbols_imports, List.length_cons]
    rw [ih (import_count st x) hlt, import_count_i]
    unfold ut32
    omega

theorem symbols_imports_fcn_idx (l : List RBinWasmImportEntry) :
    ∀ (st : IndexSpace), st.fcn_idx < 2 ^ 32 →
      (symbols_imports st l).1.fcn_idx = (st.fcn_idx + function_imports l) % 2 ^ 32 := by
  induction l with
  | nil =>
    intro st hst
    simp only [symbols_imports, function_imports, List.countP_nil, Nat.add_zero]
    omega
  | cons x rest ih =>
    intro st hst
    have hlt : (import_count st x).fcn_idx < 2 ^ 32 := by
      rw [import_count_fcn_idx]
      split_ifs
      · unfold ut32; exact Nat.mod_lt _ (by norm_num)
      · exact hst
    simp only [symbols_imports]
    rw [ih (import_count st x) hlt, import_count_fcn_idx]
    unfold function_imports at *
    rw [List.countP_cons]
    by_cases hk : x.kind = R_BIN_WASM_EXTERNALKIND_Function
    · simp only [hk, if_true, decide_True]
      unfold ut32
      omega
    · simp only [hk, if_false, decide_False]
      simp

theorem function_imports_le (l : List RBinWasmImportEntry) :
    function_imports l ≤ l.length :=
  List.countP_le_length _

theorem symbols_codes_length (bin : RBinWasmObj) (exports : List RBinWasmExportEntry)
    (codes : List RBinWasmCodeEntry) :
    ∀ (f i : Nat), (symbols_codes bin exports f i codes).length = codes.length := by
  induction codes with
  | nil => intro f i; rfl
  | cons x rest ih => intro f i; simp [symbols_codes, ih]

theorem symbols_codes_getElem (bin : RBinWasmObj) (exports : List RBinWasmExportEntry)
    (codes : List RBinWasmCodeEntry) :
    ∀ (f i j : Nat) (func : RBinWasmCodeEntry), f < 2 ^ 32 → i < 2 ^ 32 →
      codes[j]? = some func →
      (symbols_codes bin exports f i codes)[j]? =
        some (code_symbol bin exports ((f + j) % 2 ^ 32) ((i + j) % 2 ^ 32) func) := by
  induction codes with
  | nil => intro f i j func _ _ h; simp at h
  | cons x rest ih =>
    intro f i j func hf hi h
    cases j with
    | zero =>
      simp only [List.getElem?_cons_zero, Option.some.injEq] at h
      subst h
      simp only [symbols_codes, List.getElem?_cons_zero, Nat.add_zero]
      rw [Nat.mod_eq_of_lt hf, Nat.mod_eq_of_lt hi]
    | succ j =>
      simp only [List.getElem?_cons_succ] at h
      simp only [symbols_codes, List.getElem?_cons_succ]
      have h1 : ut32 (f + 1) < 2 ^ 32 := by unfold ut32; exact Nat.mod_lt _ (by norm_num)
      have h2 : ut32 (i + 1) < 2 ^ 32 := by unfold ut32; exact Nat.mod_lt _ (by norm_num)
      rw [ih _ _ j func h1 h2 h]
      unfold ut32
      congr 2 <;> omega

/-- The list `symbols` builds when the three lists are present. -/
theorem symbols_eq (bin : RBinWasmObj) (codes : List RBinWasmCodeEntry)
    (imports : List RBinWasmImportEntry) (exports : List RBinWasmExportEntry)
    (hc : bin.codes = some codes) (hi : bin.imports = some imports)
    (he : bin.exports = some exports) :
    symbols bin = some ((symbols_imports ⟨0, 0, 0, 0, 0⟩ imports).2 ++
      symbols_codes bin (r_pvector_sort exports _export_sorter)
        (function_imports imports % 2 ^ 32) (imports.length % 2 ^ 32) codes) := by
  unfold symbols r_bin_wasm_get_codes r_bin_wasm_get_imports r_bin_wasm_get_exports
  rw [hc, hi, he]
  simp only []
  rw [symbols_imports_fcn_idx imports _ (by norm_num), symbols_imports_i imports _ (by norm_num)]
  simp

/-- The symbol at the position of an import. -/
theorem symbols_getElem_import (bin : RBinWasmObj) (codes : List RBinWasmCodeEntry)
    (imports : List RBinWasmImportEntry) (exports : List RBinWasmExportEntry)
    (hc : bin.codes = some codes) (hi : bin.imports = some imports)
    (he : bin.exports = some exports) (j : Nat) (imp : RBinWasmImportEntry)
    (hj : imports[j]? = some imp) :
    ∃ syms, symbols bin = some syms ∧ syms.length = imports.length + codes.length ∧
      syms[j]? = some (import_symbol imp (j % 2 ^ 32)) := by
  refine ⟨_, symbols_eq bin codes imports exports hc hi he, ?_, ?_⟩
  · rw [List.length_append, symbols_imports_length, symbols_codes_length]
  · have hlt : j < imports.length := (List.getElem?_eq_some.mp hj).1
    rw [List.getElem?_append_left (by rw [symbols_imports_length]; exact hlt)]
    rw [symbols_imports_getElem imports _ j imp (by norm_num) hj]
    simp

/-- The symbol at the position of a code body. -/
theorem symbols_getElem_code (bin : RBinWasmObj) (codes : List RBinWasmCodeEntry)
    (imports : List RBinWasmImportEntry) (exports : List RBinWasmExportEntry)
    (hc : bin.codes = some codes) (hi : bin.imports = some imports)
    (he : bin.exports = some exports) (j : Nat) (func : RBinWasmCodeEntry)
    (hj : codes[j]? = some func) :
    ∃ syms, symbols bin = some syms ∧ syms.length = imports.length + codes.length ∧
      syms[imports.length + j]? =
        some (code_symbol bin (r_pvector_sort exports _export_sorter)
          ((function_imports imports + j) % 2 ^ 32) ((imports.length + j) % 2 ^ 32) func) := by
  refine ⟨_, symbols_eq bin codes imports exports hc hi he, ?_, ?_⟩
  · rw [List.length_append, symbols_imports_length, symbols_codes_length]
  · rw [List.getElem?_append_right (by rw [symbols_imports_length]; omega)]
    rw [symbols_imports_length, Nat.add_sub_cancel_left]
    rw [symbols_codes_getElem bin _ codes _ _ j func (Nat.mod_lt _ (by norm_num))
      (Nat.mod_lt _ (by norm_num)) hj]
    congr 2 <;> omega

/-! ## The export index -/

/-- The lookup on the sorted export sequence, in terms of the sequence. -/
theorem find_export_sort_spec (E : List RBinWasmExportEntry) (hE : ∀ e ∈ E, e.InRange)
    (k i : Nat) (hk : k < 2 ^ 8) (hi : i < 2 ^ 32) :
    ((∃ e ∈ E, e.kind = k ∧ e.index = i) →
        ∃ r, find_export (r_pvector_sort E _export_sorter) k i = some r) ∧
      ∀ r, find_export (r_pvector_sort E _export_sorter) k i = some r →
        r ∈ E ∧ r.kind = k ∧ r.index = i ∧
          ∀ e ∈ E, e.kind = k → e.index = i → r.sec_i ≤ e.sec_i := by
  have hs := r_pvector_sort_sorted E hE
  have hv : ∀ e ∈ r_pvector_sort E _export_sorter, e.InRange :=
    fun e he => hE e ((mem_r_pvector_sort E _export_sorter e).mp he)
  constructor
  · rintro ⟨e, he, hke, hie⟩
    exact find_export_isSome_sorted hs hv k i hk hi e
      ((mem_r_pvector_sort E _export_sorter e).mpr he) hke hie
  · intro r hr
    obtain ⟨h1, h2, h3, h4⟩ := find_export_some_sorted hs hv k i hk hi r hr
    refine ⟨(mem_r_pvector_sort E _export_sorter r).mp h1, h2, h3, ?_⟩
    intro e' he' hk' hi'
    exact h4 e' ((mem_r_pvector_sort E _export_sorter e').mpr he') hk' hi'

/-- C1: on an export sequence sorted with `_export_sorter`, `find_export`
returns an entry for a kind and an index exactly when some export of the
sequence has that kind and that index, and an entry it returns is an export of
the sequence with exactly that kind and index. -/
theorem find_export_iff_exists (E : List RBinWasmExportEntry) (hE : ∀ e ∈ E, e.InRange)
    (k i : Nat) (hk : k < 2 ^ 8) (hi : i < 2 ^ 32) :
    ((find_export (r_pvector_sort E _export_sorter) k i).isSome ↔
        ∃ e ∈ E, e.kind = k ∧ e.index = i) ∧
      ∀ r, find_export (r_pvector_sort E _export_sorter) k i = some r →
        r ∈ E ∧ r.kind = k ∧ r.index = i := by
  obtain ⟨hfound, hsome⟩ := find_export_sort_spec E hE k i hk hi
  refine ⟨⟨?_, ?_⟩, fun r hr => ⟨(hsome r hr).1, (hsome r hr).2.1, (hsome r hr).2.2.1⟩⟩
  · intro h
    obtain ⟨r, hr⟩ := Option.isSome_iff_exists.mp h
    exact ⟨r, (hsome r hr).1, (hsome r hr).2.1, (hsome r hr).2.2.1⟩
  · intro hex
    obtain ⟨r, hr⟩ := hfound hex
    rw [hr]
    rfl

theorem find_export_iff_exists_witness :
    (∀ e ∈ exportsWithTie, e.InRange) ∧
    ((find_export (r_pvector_sort exportsWithTie _export_sorter) 0 7).isSome ↔
        ∃ e ∈ exportsWithTie, e.kind = 0 ∧ e.index = 7) ∧
      ∀ r, find_export (r_pvector_sort exportsWithTie _export_sorter) 0 7 = some r →
        r ∈ exportsWithTie ∧ r.kind = 0 ∧ r.index = 7 :=
  ⟨by decide, find_export_iff_exists exportsWithTie (by decide) 0 7 (by decide) (by decide)⟩

/-- C2: when exports of the sequence share a kind and an index, `find_export`
on the sorted sequence returns for that kind and index one of them whose
position in the export section (`sec_i`) is the smallest among them. -/
theorem find_export_smallest_sec_i (E : List RBinWasmExportEntry) (hE : ∀ e ∈ E, e.InRange)
    (k i : Nat) (hk : k < 2 ^ 8) (hi : i < 2 ^ 32)
    (hex : ∃ e ∈ E, e.kind = k ∧ e.index = i) :
    ∃ r, find_export (r_pvector_sort E _export_sorter) k i = some r ∧
      r ∈ E ∧ r.kind = k ∧ r.index = i ∧
      ∀ e ∈ E, e.kind = k → e.index = i → r.sec_i ≤ e.sec_i := by
  obtain ⟨hfound, hsome⟩ := find_export_sort_spec E hE k i hk hi
  obtain ⟨r, hr⟩ := hfound hex
  exact ⟨r, hr, hsome r hr⟩

theorem find_export_smallest_sec_i_witness :
    (∀ e ∈ exportsSharing, e.InRange) ∧
    ∃ r, find_export (r_pvector_sort exportsSharing _export_sorter) 0 7 = some r ∧
      r ∈ exportsSharing ∧ r.kind = 0 ∧ r.index = 7 ∧
      ∀ e ∈ exportsSharing, e.kind = 0 → e.index = 7 → r.sec_i ≤ e.sec_i :=
  ⟨by decide, find_export_smallest_sec_i exportsSharing (by decide) 0 7 (by decide)
    (by decide) ⟨⟨5, "x", 0, 7⟩, by decide, rfl, rfl⟩⟩

/-- The sorted form of `exportsSharing` and the entry the lookup picks among
the three entries for (Function, 7). -/
theorem find_export_sharing_example :
    r_pvector_sort exportsSharing _export_sorter =
        [⟨0, "w", 0, 3⟩, ⟨1, "y", 0, 7⟩, ⟨2, "z", 0, 7⟩, ⟨5, "x", 0, 7⟩] ∧
      find_export (r_pvector_sort exportsSharing _export_sorter) 0 7 = some ⟨1, "y", 0, 7⟩ ∧
      find_export (r_pvector_sort exportsSharing _export_sorter) 0 4 = none := by
  decide

/-! ## The symbol list -/

/-- The symbol at the position of a code body when no counter wraps. -/
theorem symbols_getElem_code_small (bin : RBinWasmObj) (codes : List RBinWasmCodeEntry)
    (imports : List RBinWasmImportEntry) (exports : List RBinWasmExportEntry)
    (hc : bin.codes = some codes) (hi : bin.imports = some imports)
    (he : bin.exports = some exports)
    (hsize : imports.length + codes.length < 2 ^ 32)
    (j : Nat) (func : RBinWasmCodeEntry) (hj : codes[j]? = some func) :
    ∃ syms, symbols bin = some syms ∧
      syms[imports.length + j]? =
        some (code_symbol bin (r_pvector_sort exports _export_sorter)
          (function_imports imports + j) (imports.length + j) func) := by
  have hF := function_imports_le imports
  have hjlt : j < codes.length := (List.getElem?_eq_some.mp hj).1
  obtain ⟨syms, hsyms, _, hget⟩ :=
    symbols_getElem_code bin codes imports exports hc hi he j func hj
  refine ⟨syms, hsyms, ?_⟩
  rw [hget, Nat.mod_eq_of_lt (by omega), Nat.mod_eq_of_lt (by omega)]

theorem code_symbol_fields (bin : RBinWasmObj) (exports : List RBinWasmExportEntry)
    (f i : Nat) (func : RBinWasmCodeEntry) :
    (code_symbol bin exports f i func).is_imported = false ∧
      (code_symbol bin exports f i func).vaddr = func.code ∧
      (code_symbol bin exports f i func).paddr = func.code ∧
      (code_symbol bin exports f i func).size = func.len ∧
      (code_symbol bin exports f i func).ordinal = i := by
  unfold code_symbol
  split <;> exact ⟨rfl, rfl, rfl, rfl, rfl⟩

/-- C3: the function index that `symbols` uses for the code body at position
`j` (in the export lookup, the debug-name lookup and the placeholder name, all
made by the loop body `code_symbol`) is `F + j`, where `F` counts the imports of
kind Function; an import of another kind leaves the function counter as it is.
These indices increase strictly with `j` and lie above the indices below `F`
taken by the function imports. -/
theorem symbols_code_function_index (bin : RBinWasmObj) (codes : List RBinWasmCodeEntry)
    (imports : List RBinWasmImportEntry) (exports : List RBinWasmExportEntry)
    (hc : bin.codes = some codes) (hi : bin.imports = some imports)
    (he : bin.exports = some exports)
    (hsize : imports.length + codes.length < 2 ^ 32) :
    (∀ (st : IndexSpace) (imp : RBinWasmImportEntry),
        imp.kind ≠ R_BIN_WASM_EXTERNALKIND_Function →
        (import_count st imp).fcn_idx = st.fcn_idx) ∧
      (symbols_imports ⟨0, 0, 0, 0, 0⟩ imports).1.fcn_idx = function_imports imports ∧
      ∃ syms, symbols bin = some syms ∧
        ∀ (j : Nat) (func : RBinWasmCodeEntry), codes[j]? = some func →
          syms[imports.length + j]? =
              some (code_symbol bin (r_pvector_sort exports _export_sorter)
                (function_imports imports + j) (imports.length + j) func) ∧
            (∀ m, m < function_imports imports → m < function_imports imports + j) ∧
            (∀ j', j < j' → function_imports imports + j < function_imports imports + j') := by
  have hF := function_imports_le imports
  refine ⟨?_, ?_, _, symbols_eq bin codes imports exports hc hi he, ?_⟩
  · intro st imp hk
    rw [import_count_fcn_idx, if_neg hk]
  · rw [symbols_imports_fcn_idx imports _ (by norm_num)]
    simp only [Nat.zero_add]
    exact Nat.mod_eq_of_lt (by omega)
  · intro j func hj
    obtain ⟨syms, hsyms, hget⟩ :=
      symbols_getElem_code_small bin codes imports exports hc hi he hsize j func hj
    rw [symbols_eq bin codes imports exports hc hi he] at hsyms
    rw [Option.some.inj hsyms]
    exact ⟨hget, fun m hm => by omega, fun j' hj' => by omega⟩

theorem symbols_code_function_index_witness :
    (∀ (st : IndexSpace) (imp : RBinWasmImportEntry),
        imp.kind ≠ R_BIN_WASM_EXTERNALKIND_Function →
        (import_count st imp).fcn_idx = st.fcn_idx) ∧
      (symbols_imports ⟨0, 0, 0, 0, 0⟩ mixedImports).1.fcn_idx = function_imports mixedImports ∧
      ∃ syms, symbols mixedModule = some syms ∧
        ∀ (j : Nat) (func : RBinWasmCodeEntry), mixedCodes[j]? = some func →
          syms[mixedImports.length + j]? =
              some (code_symbol mixedModule (r_pvector_sort mixedExports _export_sorter)
                (function_imports mixedImports + j) (mixedImports.length + j) func) ∧
            (∀ m, m < function_imports mixedImports → m < function_imports mixedImports + j) ∧
            (∀ j', j < j' →
              function_imports mixedImports + j < function_imports mixedImports + j') :=
  symbols_code_function_index mixedModule mixedCodes mixedImports mixedExports rfl rfl rfl
    (by decide)

/-- C4: the function symbol that `symbols` emits for the code body at position
`j`, which has the function index `n = F + j`, is named after an export of kind
Function and index `n` when there is one; otherwise by the debug name of `n`
when there is one; otherwise `fcn.` followed by the decimal of `n` (for `n`
below `2 ^ 31`, which `%d` prints unchanged).  In every case it has a name. -/
theorem symbols_function_name (bin : RBinWasmObj) (codes : List RBinWasmCodeEntry)
    (imports : List RBinWasmImportEntry) (exports : List RBinWasmExportEntry)
    (hc : bin.codes = some codes) (hi : bin.imports = some imports)
    (he : bin.exports = some exports) (hE : ∀ e ∈ exports, e.InRange)
    (hsize : imports.length + codes.length < 2 ^ 32) :
    ∃ syms, symbols bin = some syms ∧
      ∀ (j : Nat) (func : RBinWasmCodeEntry), codes[j]? = some func →
        ∃ s, syms[imports.length + j]? = some s ∧ s.name.isSome ∧
          ((∃ e ∈ exports, e.kind = R_BIN_WASM_EXTERNALKIND_Function ∧
              e.index = function_imports imports + j) →
            ∃ e ∈ exports, e.kind = R_BIN_WASM_EXTERNALKIND_Function ∧
              e.index = function_imports imports + j ∧ s.name = some e.field_str) ∧
          ((¬ ∃ e ∈ exports, e.kind = R_BIN_WASM_EXTERNALKIND_Function ∧
              e.index = function_imports imports + j) →
            ∀ d, bin.function_name (function_imports imports + j) = some d →
              s.name = some d) ∧
          ((¬ ∃ e ∈ exports, e.kind = R_BIN_WASM_EXTERNALKIND_Function ∧
              e.index = function_imports imports + j) →
            bin.function_name (function_imports imports + j) = none →
            function_imports imports + j < 2 ^ 31 →
              s.name = some ("fcn." ++ toString (function_imports imports + j))) := by
  have hF := function_imports_le imports
  refine ⟨_, symbols_eq bin codes imports exports hc hi he, ?_⟩
  intro j func hj
  have hjlt : j < codes.length := (List.getElem?_eq_some.mp hj).1
  obtain ⟨syms, hsyms, hget⟩ :=
    symbols_getElem_code_small bin codes imports exports hc hi he hsize j func hj
  rw [symbols_eq bin codes imports exports hc hi he] at hsyms
  rw [Option.some.inj hsyms]
  refine ⟨_, hget, ?_⟩
  have hk : R_BIN_WASM_EXTERNALKIND_Function < 2 ^ 8 := by decide
  have hn : function_imports imports + j < 2 ^ 32 := by omega
  obtain ⟨hfound, hsome⟩ := find_export_sort_spec exports hE R_BIN_WASM_EXTERNALKIND_Function
    (function_imports imports + j) hk hn
  unfold code_symbol
  cases hfind : find_export (r_pvector_sort exports _export_sorter)
      R_BIN_WASM_EXTERNALKIND_Function (function_imports imports + j) with
  | some exp =>
    obtain ⟨hmem, hkind, hidx, _⟩ := hsome exp hfind
    refine ⟨rfl, fun _ => ⟨exp, hmem, hkind, hidx, rfl⟩, ?_, ?_⟩
    · intro hno; exact absurd ⟨exp, hmem, hkind, hidx⟩ hno
    · intro hno; exact absurd ⟨exp, hmem, hkind, hidx⟩ hno
  | none =>
    have hno : ¬ ∃ e ∈ exports, e.kind = R_BIN_WASM_EXTERNALKIND_Function ∧
        e.index = function_imports imports + j := by
      intro hex
      obtain ⟨r, hr⟩ := hfound hex
      rw [hfind] at hr
      exact absurd hr (by simp)
    refine ⟨?_, fun hex => absurd hex hno, ?_, ?_⟩
    · simp only [r_bin_wasm_get_function_name]
      cases bin.function_name (function_imports imports + j) <;> rfl
    · intro _ d hd
      simp only [r_bin_wasm_get_function_name, hd]
    · intro _ hnone hlt
      simp only [r_bin_wasm_get_function_name, hnone, fmt_d, if_pos hlt]

theorem symbols_function_name_witness :
    (∀ e ∈ mixedExports, e.InRange) ∧
    ∃ syms, symbols mixedModule = some syms ∧
      ∀ (j : Nat) (func : RBinWasmCodeEntry), mixedCodes[j]? = some func →
        ∃ s, syms[mixedImports.length + j]? = some s ∧ s.name.isSome ∧
          ((∃ e ∈ mixedExports, e.kind = R_BIN_WASM_EXTERNALKIND_Function ∧
              e.index = function_imports mixedImports + j) →
            ∃ e ∈ mixedExports, e.kind = R_BIN_WASM_EXTERNALKIND_Function ∧
              e.index = function_imports mixedImports + j ∧ s.name = some e.field_str) ∧
          ((¬ ∃ e ∈ mixedExports, e.kind = R_BIN_WASM_EXTERNALKIND_Function ∧
              e.index = function_imports mixedImports + j) →
            ∀ d, mixedModule.function_name (function_imports mixedImports + j) = some d →
              s.name = some d) ∧
          ((¬ ∃ e ∈ mixedExports, e.kind = R_BIN_WASM_EXTERNALKIND_Function ∧
              e.index = function_imports mixedImports + j) →
            mixedModule.function_name (function_imports mixedImports + j) = none →
            function_imports mixedImports + j < 2 ^ 31 →
              s.name = some ("fcn." ++ toString (function_imports mixedImports + j))) :=
  ⟨by decide, symbols_function_name mixedModule mixedCodes mixedImports mixedExports rfl rfl rfl
    (by decide) (by decide)⟩

/-- The scenario of the spec: the import takes the function index 0 and the
ordinal 0, the code body is the function of index 1 and is named by the export
of that index. -/
theorem scenario_symbols :
    symbols scenarioModule = some [
      { name := some "log", libname := some "env", is_imported := true,
        forwarder := some "NONE", bind := some "NONE", type := some "FUNC",
        size := 0, vaddr := UT64_MAX, paddr := UT64_MAX, ordinal := 0 },
      { name := some "main", libname := none, is_imported := false,
        forwarder := some "NONE", bind := some "GLOBAL", type := some "FUNC",
        size := 10, vaddr := 0x100, paddr := 0x100, ordinal := 1 }] := by
  decide

/-- The scenario of the spec without exports and without debug names: the code
body gets the placeholder name of its function index 1. -/
theorem scenario_no_exports_symbols :
    symbols scenarioNoExports = some [
      { name := some "log", libname := some "env", is_imported := true,
        forwarder := some "NONE", bind := some "NONE", type := some "FUNC",
        size := 0, vaddr := UT64_MAX, paddr := UT64_MAX, ordinal := 0 },
      { name := some "fcn.1", libname := none, is_imported := false,
        forwarder := some "NONE", bind := some "NONE", type := some "FUNC",
        size := 10, vaddr := 0x100, paddr := 0x100, ordinal := 1 }] := by
  decide

/-- C5: when the import list, the code list and the export list are present,
`symbols` returns `|imports| + |codes|` symbols; the symbol at the position of
an import is imported and carries the field name of that import, and the symbol
at position `|imports| + j` is not imported and carries the start address and
the length of the code body at position `j` as its addresses and its size. -/
theorem symbols_complete (bin : RBinWasmObj) (codes : List RBinWasmCodeEntry)
    (imports : List RBinWasmImportEntry) (exports : List RBinWasmExportEntry)
    (hc : bin.codes = some codes) (hi : bin.imports = some imports)
    (he : bin.exports = some exports) :
    ∃ syms, symbols bin = some syms ∧ syms.length = imports.length + codes.length ∧
      (∀ (i : Nat) (imp : RBinWasmImportEntry), imports[i]? = some imp →
        ∃ s, syms[i]? = some s ∧ s.is_imported = true ∧ s.name = some imp.field_str) ∧
      (∀ (j : Nat) (func : RBinWasmCodeEntry), codes[j]? = some func →
        ∃ s, syms[imports.length + j]? = some s ∧ s.is_imported = false ∧
          s.vaddr = func.code ∧ s.paddr = func.code ∧ s.size = func.len) := by
  refine ⟨_, symbols_eq bin codes imports exports hc hi he, ?_, ?_, ?_⟩
  · rw [List.length_append, symbols_imports_length, symbols_codes_length]
  · intro i imp himp
    obtain ⟨syms, hsyms, _, hget⟩ :=
      symbols_getElem_import bin codes imports exports hc hi he i imp himp
    rw [symbols_eq bin codes imports exports hc hi he] at hsyms
    rw [Option.some.inj hsyms]
    exact ⟨_, hget, rfl, rfl⟩
  · intro j func hfunc
    obtain ⟨syms, hsyms, _, hget⟩ :=
      symbols_getElem_code bin codes imports exports hc hi he j func hfunc
    rw [symbols_eq bin codes imports exports hc hi he] at hsyms
    rw [Option.some.inj hsyms]
    obtain ⟨h1, h2, h3, h4, _⟩ := code_symbol_fields bin
      (r_pvector_sort exports _export_sorter) ((function_imports imports + j) % 2 ^ 32)
      ((imports.length + j) % 2 ^ 32) func
    exact ⟨_, hget, h1, h2, h3, h4⟩

theorem symbols_complete_witness :
    ∃ syms, symbols mixedModule = some syms ∧
      syms.length = mixedImports.length + mixedCodes.length ∧
      (∀ (i : Nat) (imp : RBinWasmImportEntry), mixedImports[i]? = some imp →
        ∃ s, syms[i]? = some s ∧ s.is_imported = true ∧ s.name = some imp.field_str) ∧
      (∀ (j : Nat) (func : RBinWasmCodeEntry), mixedCodes[j]? = some func →
        ∃ s, syms[mixedImports.length + j]? = some s ∧ s.is_imported = false ∧
          s.vaddr = func.code ∧ s.paddr = func.code ∧ s.size = func.len) :=
  symbols_complete mixedModule mixedCodes mixedImports mixedExports rfl rfl rfl

/-- C6: in the list `symbols` returns, the symbol at position `p` has the
ordinal `p`: ordinals start at zero and grow by one with every symbol, through
the imports of every kind and the function symbols after them. -/
theorem symbols_ordinal (bin : RBinWasmObj) (codes : List RBinWasmCodeEntry)
    (imports : List RBinWasmImportEntry) (exports : List RBinWasmExportEntry)
    (hc : bin.codes = some codes) (hi : bin.imports = some imports)
    (he : bin.exports = some exports)
    (hsize : imports.length + codes.length < 2 ^ 32) :
    ∃ syms, symbols bin = some syms ∧
      ∀ (p : Nat) (s : RBinSymbol), syms[p]? = some s → s.ordinal = p := by
  refine ⟨_, symbols_eq bin codes imports exports hc hi he, ?_⟩
  intro p s hs
  have hlen : p < imports.length + codes.length := by
    have := (List.getElem?_eq_some.mp hs).1
    rwa [List.length_append, symbols_imports_length, symbols_codes_length] at this
  by_cases hp : p < imports.length
  · obtain ⟨syms, hsyms, _, hget⟩ := symbols_getElem_import bin codes imports exports hc hi he
      p imports[p] (List.getElem?_eq_getElem hp)
    rw [symbols_eq bin codes imports exports hc hi he] at hsyms
    rw [← Option.some.inj hsyms, hs] at hget
    rw [Option.some.inj hget]
    exact Nat.mod_eq_of_lt (by omega)
  · have hj : p - imports.length < codes.length := by omega
    obtain ⟨syms, hsyms, _, hget⟩ := symbols_getElem_code bin codes imports exports hc hi he
      (p - imports.length) codes[p - imports.length] (List.getElem?_eq_getElem hj)
    rw [symbols_eq bin codes imports exports hc hi he] at hsyms
    rw [← Option.some.inj hsyms, Nat.add_sub_cancel' (by omega), hs] at hget
    rw [Option.some.inj hget, (code_symbol_fields _ _ _ _ _).2.2.2.2]
    exact Nat.mod_eq_of_lt (by omega)

theorem symbols_ordinal_witness :
    ∃ syms, symbols mixedModule = some syms ∧
      ∀ (p : Nat) (s : RBinSymbol), syms[p]? = some s → s.ordinal = p :=
  symbols_ordinal mixedModule mixedCodes mixedImports mixedExports rfl rfl rfl (by decide)

/-- C7: when the code list or the import list is absent, `symbols` returns no
list at all, whatever the other inputs are. -/
theorem symbols_absent_codes_or_imports (bin : RBinWasmObj)
    (h : bin.codes = none ∨ bin.imports = none) : symbols bin = none := by
  unfold symbols r_bin_wasm_get_codes r_bin_wasm_get_imports r_bin_wasm_get_exports
  rcases h with h | h
  · rw [h]
  · rw [h]
    cases bin.codes <;> rfl

theorem symbols_absent_codes_or_imports_witness :
    (moduleWithoutCodes.codes = none ∨ moduleWithoutCodes.imports = none) ∧
      symbols moduleWithoutCodes = none :=
  ⟨Or.inl rfl, symbols_absent_codes_or_imports moduleWithoutCodes (Or.inl rfl)⟩

/-- C8, as the code has it: when the export list is absent `symbols` returns
no list at all, as it does for an absent import list or code list. -/
theorem symbols_absent_exports (bin : RBinWasmObj) (h : bin.exports = none) :
    symbols bin = none := by
  unfold symbols r_bin_wasm_get_codes r_bin_wasm_get_imports r_bin_wasm_get_exports
  rw [h]
  cases bin.codes <;> cases bin.imports <;> rfl

theorem symbols_absent_exports_witness :
    emptyModuleWithoutExports.exports = none ∧ symbols emptyModuleWithoutExports = none :=
  ⟨rfl, symbols_absent_exports emptyModuleWithoutExports rfl⟩

/-- C8 fails as stated: a module with an import list and a code list but no
export list gets no symbol list, not a list of `|imports| + |codes|` symbols. -/
theorem symbols_absent_exports_not_full :
    moduleWithoutExports.imports = some [⟨"env", "log", 0⟩] ∧
      moduleWithoutExports.codes = some [⟨0x100, 10⟩] ∧
      moduleWithoutExports.exports = none ∧
      ¬ ∃ syms, symbols moduleWithoutExports = some syms ∧ syms.length = 1 + 1 := by
  refine ⟨rfl, rfl, rfl, ?_⟩
  rintro ⟨syms, h, _⟩
  have hnone : symbols moduleWithoutExports = none := by decide
  rw [hnone] at h
  exact Option.noConfusion h

/-! ## The entrypoint -/

/-- C9, as the code has it: for a module without explicit entrypoint, `entries`
returns the start address of the first code body when the code list is
non-empty and that address is not zero; it reports absence when the code list
is empty or absent, and also when the first code body starts at offset zero. -/
theorem entries_no_entrypoint (bin : RBinWasmObj) (h : bin.entrypoint = none) :
    (∀ func rest, bin.codes = some (func :: rest) → func.code ≠ 0 →
        entries bin = some [{ paddr := func.code, vaddr := func.code }]) ∧
      (∀ func rest, bin.codes = some (func :: rest) → func.code = 0 → entries bin = none) ∧
      (bin.codes = some [] → entries bin = none) ∧
      (bin.codes = none → entries bin = none) := by
  unfold entries r_bin_wasm_get_entrypoint r_bin_wasm_get_codes
  rw [h]
  refine ⟨?_, ?_, ?_, ?_⟩
  · intro func rest hc hne
    rw [hc]
    simp [hne]
  · intro func rest hc hz
    rw [hc]
    simp [hz]
  · intro hc
    rw [hc]
    simp
  · intro hc
    rw [hc]
    simp

theorem entries_no_entrypoint_witness :
    scenarioModule.entrypoint = none ∧
    (∀ func rest, scenarioModule.codes = some (func :: rest) → func.code ≠ 0 →
        entries scenarioModule = some [{ paddr := func.code, vaddr := func.code }]) ∧
      (∀ func rest, scenarioModule.codes = some (func :: rest) → func.code = 0 →
        entries scenarioModule = none) ∧
      (scenarioModule.codes = some [] → entries scenarioModule = none) ∧
      (scenarioModule.codes = none → entries scenarioModule = none) :=
  ⟨rfl, entries_no_entrypoint scenarioModule rfl⟩

/-- C9 fails as stated: a module without explicit entrypoint whose code list is
non-empty and whose first code body starts at offset zero gets no entry, not
the start address of its first code body. -/
theorem entries_first_code_at_zero :
    moduleCodeAtZero.entrypoint = none ∧
      moduleCodeAtZero.codes = some [⟨0, 4⟩, ⟨0x20, 4⟩] ∧
      entries moduleCodeAtZero ≠ some [{ paddr := 0, vaddr := 0 }] ∧
      entries moduleCodeAtZero = none := by
  decide

/-- C10: for a module whose explicit entrypoint is present and not zero,
`entries` returns the list of exactly one address, that entrypoint as physical
and as virtual address, whatever the code list is; and a list that `entries`
returns never has more than one element. -/
theorem entries_explicit_entrypoint (bin : RBinWasmObj) :
    (∀ a, bin.entrypoint = some a → a ≠ 0 →
        entries bin = some [{ paddr := a, vaddr := a }]) ∧
      ∀ l, entries bin = some l → l.length ≤ 1 := by
  constructor
  · intro a ha hne
    unfold entries r_bin_wasm_get_entrypoint
    rw [ha]
    simp [hne]
  · intro l hl
    unfold entries at hl
    simp only [] at hl
    split_ifs at hl
    · rw [← Option.some.inj hl]; exact Nat.le_refl _
    · rw [← Option.some.inj hl]; exact Nat.le_refl _

theorem entries_explicit_entrypoint_witness :
    moduleWithEntry.entrypoint = some 0x40 ∧
      entries moduleWithEntry = some [{ paddr := 0x40, vaddr := 0x40 }] :=
  ⟨rfl, (entries_explicit_entrypoint moduleWithEntry).1 0x40 rfl (by decide)⟩

/-! ## The section list -/

/-- C11: for a present raw section list, `sections` returns a list of the same
length and order whose record at position `i` copies the name of the raw
section at position `i`, has size and virtual size equal to its payload length,
physical and virtual address equal to its file offset, and is data exactly when
its id is that of the data section or of the memory section. -/
theorem sections_records (secs : List RBinWasmSection) :
    ∃ ret, sections (some secs) = some ret ∧ ret.length = secs.length ∧
      ∀ (i : Nat) (sec : RBinWasmSection), secs[i]? = some sec →
        ∃ r, ret[i]? = some r ∧ r.name = some sec.name ∧
          r.size = sec.payload_len ∧ r.vsize = sec.payload_len ∧
          r.paddr = sec.offset ∧ r.vaddr = sec.offset ∧
          (r.is_data = true ↔
            (sec.id = R_BIN_WASM_SECTION_DATA ∨ sec.id = R_BIN_WASM_SECTION_MEMORY)) := by
  refine ⟨secs.map section_record, rfl, List.length_map _ _, ?_⟩
  intro i sec hsec
  refine ⟨section_record sec, ?_, rfl, rfl, rfl, rfl, rfl, ?_⟩
  · rw [List.getElem?_map, hsec]
    rfl
  · unfold section_record
    simp only []
    split_ifs with h
    · exact ⟨fun _ => h, fun _ => rfl⟩
    · exact ⟨fun hf => absurd hf (by simp), fun hk => absurd hk h⟩

theorem sections_records_witness :
    ∃ ret, sections (some someSections) = some ret ∧ ret.length = someSections.length ∧
      ∀ (i : Nat) (sec : RBinWasmSection), someSections[i]? = some sec →
        ∃ r, ret[i]? = some r ∧ r.name = some sec.name ∧
          r.size = sec.payload_len ∧ r.vsize = sec.payload_len ∧
          r.paddr = sec.offset ∧ r.vaddr = sec.offset ∧
          (r.is_data = true ↔
            (sec.id = R_BIN_WASM_SECTION_DATA ∨ sec.id = R_BIN_WASM_SECTION_MEMORY)) :=
  sections_records someSections

/-- The records of the example sections. -/
theorem sections_example :
    sections (some someSections) = some [
      { name := some "type", is_data := false, size := 7, vsize := 7, vaddr := 10,
        paddr := 10, add := true, perm := 0 },
      { name := some "memory", is_data := true, size := 3, vsize := 3, vaddr := 40,
        paddr := 40, add := true, perm := 0 },
      { name := some "code", is_data := false, size := 30, vsize := 30, vaddr := 50,
        paddr := 50, add := true, perm := 0 },
      { name := some "data", is_data := true, size := 9, vsize := 9, vaddr := 90,
        paddr := 90, add := true, perm := 0 }] := by
  decide

/-! ## The import list -/

theorem imports_loop_eq_map (i : Nat) (l : List RBinWasmImportEntry) :
    imports_loop i l = l.map (fun imp => import_record imp i) := by
  induction l with
  | nil => rfl
  | cons x rest ih => simp [imports_loop, ih]

/-- What `imports` returns for a present import list: one record per import,
in order, each with the ordinal zero. -/
theorem imports_eq (bin : RBinWasmObj) (l : List RBinWasmImportEntry)
    (hi : bin.imports = some l) :
    imports bin = some (l.map (fun imp => import_record imp 0)) := by
  unfold imports r_bin_wasm_get_imports
  rw [hi]
  simp only [imports_loop_eq_map]

/-- C12, the code at a failing input: for the four imports of `mixedModule`,
`imports` gives every record the ordinal 0, also the records at the positions
1, 2 and 3; names, class names and type tags are as the claim says. -/
theorem imports_mixed_ordinals :
    mixedModule.imports = some mixedImports ∧
      imports mixedModule = some [
        { name := some "mem", classname := some "env", ordinal := 0, bind := some "NONE",
          type := some "MEM" },
        { name := some "log", classname := some "env", ordinal := 0, bind := some "NONE",
          type := some "FUNC" },
        { name := some "tab", classname := some "env", ordinal := 0, bind := some "NONE",
          type := some "TABLE" },
        { name := some "g", classname := some "env", ordinal := 0, bind := some "NONE",
          type := some "GLOBAL" }] := by
  decide

/-! ## The offset oracle -/

theorem st32_of_small (x : Nat) (h : x < 2 ^ 31) : st32 (x : Int) = (x : Int) := by
  unfold st32
  omega

theorem st32_eq_neg_one (x : Nat) : st32 (x : Int) = -1 ↔ x % 2 ^ 32 = 2 ^ 32 - 1 := by
  unfold st32
  omega

theorem get_fcn_offset_from_id_some (bin : RBinWasmObj) (codes : List RBinWasmCodeEntry)
    (hc : bin.codes = some codes) (idx : Int) (func : RBinWasmCodeEntry)
    (h0 : 0 ≤ idx) (hf : codes[idx.toNat]? = some func) :
    get_fcn_offset_from_id bin idx = st32 func.code := by
  unfold get_fcn_offset_from_id r_bin_wasm_get_codes r_list_get_n
  rw [hc]
  simp only [if_neg (not_lt.mpr h0), hf]

theorem get_fcn_offset_from_id_none (bin : RBinWasmObj) (codes : List RBinWasmCodeEntry)
    (hc : bin.codes = some codes) (idx : Int)
    (h : idx < 0 ∨ (codes.length : Int) ≤ idx) :
    get_fcn_offset_from_id bin idx = -1 := by
  unfold get_fcn_offset_from_id r_bin_wasm_get_codes r_list_get_n
  rw [hc]
  by_cases h0 : idx < 0
  · simp only [if_pos h0]
  · have hlen : codes.length ≤ idx.toNat := by omega
    simp only [if_neg h0, List.getElem?_eq_none hlen]

/-- C13, as the code has it: with the function tag, `getoffset` returns the
start address of the code body at position `idx`, converted to `int`, when
`0 <= idx < |codes|`, and `-1` otherwise; with another tag it returns `-1`.  The
returned value is the start address itself when that is below `2 ^ 31`, and it
differs from `-1` unless the low 32 bits of the start address are all ones. -/
theorem getoffset_value (bin : RBinWasmObj) (codes : List RBinWasmCodeEntry)
    (hc : bin.codes = some codes) :
    (∀ (idx : Int) (func : RBinWasmCodeEntry), 0 ≤ idx → codes[idx.toNat]? = some func →
        getoffset bin TYPE_FCN idx = st32 func.code ∧
        (func.code < 2 ^ 31 → getoffset bin TYPE_FCN idx = func.code) ∧
        (func.code % 2 ^ 32 ≠ 2 ^ 32 - 1 → getoffset bin TYPE_FCN idx ≠ -1)) ∧
      (∀ (idx : Int), idx < 0 ∨ (codes.length : Int) ≤ idx →
        getoffset bin TYPE_FCN idx = -1) ∧
      (∀ (type idx : Int), type ≠ TYPE_FCN → getoffset bin type idx = -1) := by
  refine ⟨?_, ?_, ?_⟩
  · intro idx func h0 hf
    have hval : getoffset bin TYPE_FCN idx = st32 func.code := by
      unfold getoffset
      rw [if_pos rfl, get_fcn_offset_from_id_some bin codes hc idx func h0 hf]
    refine ⟨hval, ?_, ?_⟩
    · intro hlt
      rw [hval, st32_of_small _ hlt]
    · intro hne
      rw [hval]
      intro heq
      exact hne ((st32_eq_neg_one _).mp heq)
  · intro idx h
    unfold getoffset
    rw [if_pos rfl, get_fcn_offset_from_id_none bin codes hc idx h]
  · intro type idx hne
    unfold getoffset
    rw [if_neg hne]

theorem getoffset_value_witness :
    mixedModule.codes = some mixedCodes ∧
    (∀ (idx : Int) (func : RBinWasmCodeEntry), 0 ≤ idx →
        mixedCodes[idx.toNat]? = some func →
        getoffset mixedModule TYPE_FCN idx = st32 func.code ∧
        (func.code < 2 ^ 31 → getoffset mixedModule TYPE_FCN idx = func.code) ∧
        (func.code % 2 ^ 32 ≠ 2 ^ 32 - 1 → getoffset mixedModule TYPE_FCN idx ≠ -1)) ∧
      (∀ (idx : Int), idx < 0 ∨ (mixedCodes.length : Int) ≤ idx →
        getoffset mixedModule TYPE_FCN idx = -1) ∧
      (∀ (type idx : Int), type ≠ TYPE_FCN → getoffset mixedModule type idx = -1) :=
  ⟨rfl, getoffset_value mixedModule mixedCodes rfl⟩

/-- C13 fails as stated: for a code body that starts at the offset
`0xffffffff`, `getoffset` with the function tag and the position 0 of that body
returns `-1`, the value it also returns when there is no such body. -/
theorem getoffset_code_at_max :
    moduleCodeAtMax.codes = some [⟨0xffffffff, 2⟩] ∧
      getoffset moduleCodeAtMax TYPE_FCN 0 = -1 ∧
      getoffset moduleCodeAtMax TYPE_FCN 1 = -1 ∧
      getoffset moduleCodeAtMax TYPE_FCN 0 ≠ 0xffffffff := by
  decide

/-! ## The symbols of the imports -/

/-- C14: the symbol that `symbols` emits for an import, of whatever kind, is
imported, has the module name of the import as library name and its field name
as name, has size 0, and has no address: its virtual and its physical address
are the all-ones value `UT64_MAX`. -/
theorem symbols_import_fields (bin : RBinWasmObj) (codes : List RBinWasmCodeEntry)
    (imports : List RBinWasmImportEntry) (exports : List RBinWasmExportEntry)
    (hc : bin.codes = some codes) (hi : bin.imports = some imports)
    (he : bin.exports = some exports) :
    ∃ syms, symbols bin = some syms ∧
      ∀ (i : Nat) (imp : RBinWasmImportEntry), imports[i]? = some imp →
        ∃ s, syms[i]? = some s ∧ s.is_imported = true ∧
          s.libname = some imp.module_str ∧ s.name = some imp.field_str ∧
          s.size = 0 ∧ s.vaddr = 2 ^ 64 - 1 ∧ s.paddr = 2 ^ 64 - 1 := by
  refine ⟨_, symbols_eq bin codes imports exports hc hi he, ?_⟩
  intro i imp himp
  obtain ⟨syms, hsyms, _, hget⟩ :=
    symbols_getElem_import bin codes imports exports hc hi he i imp himp
  rw [symbols_eq bin codes imports exports hc hi he] at hsyms
  rw [Option.some.inj hsyms]
  exact ⟨_, hget, rfl, rfl, rfl, rfl, rfl, rfl⟩

theorem symbols_import_fields_witness :
    ∃ syms, symbols mixedModule = some syms ∧
      ∀ (i : Nat) (imp : RBinWasmImportEntry), mixedImports[i]? = some imp →
        ∃ s, syms[i]? = some s ∧ s.is_imported = true ∧
          s.libname = some imp.module_str ∧ s.name = some imp.field_str ∧
          s.size = 0 ∧ s.vaddr = 2 ^ 64 - 1 ∧ s.paddr = 2 ^ 64 - 1 :=
  symbols_import_fields mixedModule mixedCodes mixedImports mixedExports rfl rfl rfl

/-! ## The export vector after `symbols` -/

theorem sortInsert_of_le_head (x : RBinWasmExportEntry) (l : List RBinWasmExportEntry)
    (hx : x.InRange) (hl : ∀ y ∈ l, y.InRange) (h : ∀ y ∈ l, keyLe x y) :
    sortInsert _export_sorter x l = x :: l := by
  cases l with
  | nil => rfl
  | cons y ys =>
    unfold sortInsert
    rw [if_pos ((export_sorter_le x y hx (hl y (List.mem_cons_self y ys))).mpr
      (h y (List.mem_cons_self y ys)))]

/-- Sorting leaves a sequence that is already in order as it is. -/
theorem r_pvector_sort_of_sorted (v : List RBinWasmExportEntry) (hv : ∀ e ∈ v, e.InRange)
    (hs : v.Pairwise keyLe) : r_pvector_sort v _export_sorter = v := by
  induction v with
  | nil => rfl
  | cons x xs ih =>
    obtain ⟨hx, hrest⟩ := List.pairwise_cons.mp hs
    have hxs : ∀ e ∈ xs, e.InRange := fun e he => hv e (List.mem_cons_of_mem x he)
    unfold r_pvector_sort
    rw [ih hxs hrest]
    exact sortInsert_of_le_head x xs (hv x (List.mem_cons_self x xs)) hxs hx

/-- C15, as the code has it: `symbols` sorts the export vector of the module in
place.  After a call that returns a list the vector holds the same entries,
in the order of the key (kind, index, position in the section); its order is the
one before the call when it was already in that order. -/
theorem symbols_exports_sorted (bin : RBinWasmObj) (codes : List RBinWasmCodeEntry)
    (imports : List RBinWasmImportEntry) (exports : List RBinWasmExportEntry)
    (hc : bin.codes = some codes) (hi : bin.imports = some imports)
    (he : bin.exports = some exports) (hE : ∀ e ∈ exports, e.InRange) :
    ∃ syms after, symbols bin = some syms ∧ symbols_exports bin = some after ∧
      after.Perm exports ∧ after.Pairwise keyLe ∧
      (exports.Pairwise keyLe → after = exports) := by
  refine ⟨_, r_pvector_sort exports _export_sorter,
    symbols_eq bin codes imports exports hc hi he, ?_,
    r_pvector_sort_perm exports _export_sorter, r_pvector_sort_sorted exports hE,
    r_pvector_sort_of_sorted exports hE⟩
  unfold symbols_exports r_bin_wasm_get_codes r_bin_wasm_get_imports r_bin_wasm_get_exports
  rw [hc, hi, he]

theorem symbols_exports_sorted_witness :
    (∀ e ∈ exportsUnsorted, e.InRange) ∧
    ∃ syms after, symbols moduleUnsortedExports = some syms ∧
      symbols_exports moduleUnsortedExports = some after ∧
      after.Perm exportsUnsorted ∧ after.Pairwise keyLe ∧
      (exportsUnsorted.Pairwise keyLe → after = exportsUnsorted) :=
  ⟨by decide, symbols_exports_sorted moduleUnsortedExports _ [] exportsUnsorted rfl rfl rfl
    (by decide)⟩

/-- C15 fails as stated: for a module whose two exports are declared in the
order (index 2, index 1), `symbols` returns a list and leaves the export vector
of the module in the order (index 1, index 2). -/
theorem symbols_reorders_exports :
    moduleUnsortedExports.exports = some [⟨0, "b", 0, 2⟩, ⟨1, "a", 0, 1⟩] ∧
      (symbols moduleUnsortedExports).isSome = true ∧
      symbols_exports moduleUnsortedExports = some [⟨1, "a", 0, 1⟩, ⟨0, "b", 0, 2⟩] ∧
      symbols_exports moduleUnsortedExports ≠ moduleUnsortedExports.exports := by
  decide

/-! ## The order of the sorted export sequence -/

theorem keyLt_of_keyLe_of_ne {a b : RBinWasmExportEntry} (h : keyLe a b)
    (hne : a.sec_i ≠ b.sec_i) : keyLt a b := by
  unfold keyLe at h
  unfold keyLt
  omega

/-- C16: sorting an export sequence with `_export_sorter` gives a permutation
of the sequence that is strictly ordered by the key (kind, index, position in
the section): the key of an entry is strictly smaller than the key of every
entry after it.  The positions `sec_i` of the entries of a sequence are pairwise
distinct. -/
theorem r_pvector_sort_strict (E : List RBinWasmExportEntry) (hE : ∀ e ∈ E, e.InRange)
    (hpos : (E.map (fun e => e.sec_i)).Nodup) :
    (r_pvector_sort E _export_sorter).Perm E ∧
      (r_pvector_sort E _export_sorter).Pairwise keyLt ∧
      (r_pvector_sort E _export_sorter).Chain' keyLt := by
  have hperm := r_pvector_sort_perm E _export_sorter
  have hsorted := r_pvector_sort_sorted E hE
  have hnodup : (r_pvector_sort E _export_sorter).Pairwise
      (fun a b => a.sec_i ≠ b.sec_i) := by
    have h1 : ((r_pvector_sort E _export_sorter).map (fun e => e.sec_i)).Nodup :=
      (List.Perm.map _ hperm).nodup_iff.mpr hpos
    exact List.pairwise_map.mp h1
  have hstrict : (r_pvector_sort E _export_sorter).Pairwise keyLt :=
    List.Pairwise.imp₂ (fun a b h1 h2 => keyLt_of_keyLe_of_ne h1 h2) hsorted hnodup
  exact ⟨hperm, hstrict, List.Pairwise.chain' hstrict⟩

theorem r_pvector_sort_strict_witness :
    (∀ e ∈ exportsSharing, e.InRange) ∧ (exportsSharing.map (fun e => e.sec_i)).Nodup ∧
    (r_pvector_sort exportsSharing _export_sorter).Perm exportsSharing ∧
      (r_pvector_sort exportsSharing _export_sorter).Pairwise keyLt ∧
      (r_pvector_sort exportsSharing _export_sorter).Chain' keyLt :=
  ⟨by decide, by decide, r_pvector_sort_strict exportsSharing (by decide) (by decide)⟩

/-! ## The comparators as orders -/

theorem export_sorter_eq_one (a b : RBinWasmExportEntry) (ha : a.InRange) (hb : b.InRange) :
    _export_sorter a b = 1 ↔ keyLt b a := by
  obtain ⟨h1, h2, h3⟩ := ha
  obtain ⟨h4, h5, h6⟩ := hb
  unfold _export_sorter keyLt
  rw [st64_sub_of_lt _ _ (by omega) (by omega), st64_sub_of_lt _ _ h2 h5,
    st64_sub_of_lt _ _ h3 h6]
  simp only []
  split_ifs <;> constructor <;> intro h <;> first | omega | contradiction

theorem export_sorter_eq_neg_one (a b : RBinWasmExportEntry) (ha : a.InRange)
    (hb : b.InRange) : _export_sorter a b = -1 ↔ keyLe a b := by
  rw [← export_sorter_le a b ha hb]
  unfold _export_sorter
  simp only []
  split_ifs <;> constructor <;> intro h <;> first | omega | contradiction

theorem exportKey_ne_iff (a b : RBinWasmExportEntry) :
    exportKey a ≠ exportKey b ↔ ¬ (a.kind = b.kind ∧ a.index = b.index ∧ a.sec_i = b.sec_i) := by
  unfold exportKey
  simp [Prod.ext_iff]

/-- C17: for entries whose fields fit `ut8` and `ut32` (no difference leaves
the range of `st64`), `_export_sorter (a, b)` is 1 when the key (kind, index,
`sec_i`) of `a` is greater than that of `b` and -1 otherwise.  On entries with
distinct keys it is a strict total order: the results for (a, b) and (b, a) are
opposite, one of them is -1, and the order is transitive. -/
theorem export_sorter_order (a b : RBinWasmExportEntry) (ha : a.InRange) (hb : b.InRange) :
    (_export_sorter a b = 1 ↔ keyLt b a) ∧
      (_export_sorter a b = -1 ↔ ¬ keyLt b a) ∧
      (exportKey a ≠ exportKey b → _export_sorter a b = - _export_sorter b a) ∧
      (exportKey a ≠ exportKey b → (_export_sorter a b = -1 ↔ keyLt a b)) ∧
      (∀ c : RBinWasmExportEntry, c.InRange →
        _export_sorter a b = -1 → _export_sorter b c = -1 → _export_sorter a c = -1) ∧
      (∀ c : RBinWasmExportEntry, c.InRange →
        _export_sorter a b = 1 → _export_sorter b c = 1 → _export_sorter a c = 1) := by
  have hle : ∀ x y : RBinWasmExportEntry, keyLe x y ↔ ¬ keyLt y x := by
    intro x y
    unfold keyLe keyLt
    omega
  refine ⟨export_sorter_eq_one a b ha hb, ?_, ?_, ?_, ?_, ?_⟩
  · rw [export_sorter_eq_neg_one a b ha hb]
    exact hle a b
  · intro hne
    rw [exportKey_ne_iff] at hne
    by_cases hlt : keyLt b a
    · have h1 := (export_sorter_eq_one a b ha hb).mpr hlt
      have h2 : _export_sorter b a = -1 := by
        rw [export_sorter_eq_neg_one b a hb ha]
        unfold keyLt at hlt
        unfold keyLe
        omega
      rw [h1, h2]
      rfl
    · have h1 : _export_sorter a b = -1 := by
        rw [export_sorter_eq_neg_one a b ha hb]
        exact (hle a b).mpr hlt
      have h2 : _export_sorter b a = 1 := by
        rw [export_sorter_eq_one b a hb ha]
        unfold keyLt at hlt ⊢
        omega
      rw [h1, h2]
  · intro hne
    rw [exportKey_ne_iff] at hne
    rw [export_sorter_eq_neg_one a b ha hb]
    unfold keyLe keyLt
    constructor <;> intro h <;> omega
  · intro c hc h1 h2
    rw [export_sorter_eq_neg_one _ _ ha hb] at h1
    rw [export_sorter_eq_neg_one _ _ hb hc] at h2
    rw [export_sorter_eq_neg_one _ _ ha hc]
    exact keyLe_trans h1 h2
  · intro c hc h1 h2
    rw [export_sorter_eq_one _ _ ha hb] at h1
    rw [export_sorter_eq_one _ _ hb hc] at h2
    rw [export_sorter_eq_one _ _ ha hc]
    unfold keyLt at *
    omega

theorem export_sorter_order_witness :
    (RBinWasmExportEntry.mk 1 "y" 0 7).InRange ∧ (RBinWasmExportEntry.mk 2 "z" 0 7).InRange ∧
    (_export_sorter ⟨1, "y", 0, 7⟩ ⟨2, "z", 0, 7⟩ = 1 ↔ keyLt ⟨2, "z", 0, 7⟩ ⟨1, "y", 0, 7⟩) ∧
      (_export_sorter ⟨1, "y", 0, 7⟩ ⟨2, "z", 0, 7⟩ = -1 ↔
        ¬ keyLt ⟨2, "z", 0, 7⟩ ⟨1, "y", 0, 7⟩) ∧
      (exportKey ⟨1, "y", 0, 7⟩ ≠ exportKey ⟨2, "z", 0, 7⟩ →
        _export_sorter ⟨1, "y", 0, 7⟩ ⟨2, "z", 0, 7⟩ =
          - _export_sorter ⟨2, "z", 0, 7⟩ ⟨1, "y", 0, 7⟩) ∧
      (exportKey ⟨1, "y", 0, 7⟩ ≠ exportKey ⟨2, "z", 0, 7⟩ →
        (_export_sorter ⟨1, "y", 0, 7⟩ ⟨2, "z", 0, 7⟩ = -1 ↔
          keyLt ⟨1, "y", 0, 7⟩ ⟨2, "z", 0, 7⟩)) ∧
      (∀ c : RBinWasmExportEntry, c.InRange →
        _export_sorter ⟨1, "y", 0, 7⟩ ⟨2, "z", 0, 7⟩ = -1 →
        _export_sorter ⟨2, "z", 0, 7⟩ c = -1 → _export_sorter ⟨1, "y", 0, 7⟩ c = -1) ∧
      (∀ c : RBinWasmExportEntry, c.InRange →
        _export_sorter ⟨1, "y", 0, 7⟩ ⟨2, "z", 0, 7⟩ = 1 →
        _export_sorter ⟨2, "z", 0, 7⟩ c = 1 → _export_sorter ⟨1, "y", 0, 7⟩ c = 1) :=
  ⟨by decide, by decide, export_sorter_order ⟨1, "y", 0, 7⟩ ⟨2, "z", 0, 7⟩ (by decide) (by decide)⟩

theorem export_finder_le_of_keyLe (n : search_fields) (hn : n.InRange)
    (a b : RBinWasmExportEntry) (ha : a.InRange) (hb : b.InRange) (h : keyLe a b) :
    _export_finder a n ≤ _export_finder b n := by
  obtain ⟨h1, h2, _⟩ := ha
  obtain ⟨h4, h5, _⟩ := hb
  obtain ⟨h7, h8⟩ := hn
  unfold keyLe at h
  unfold _export_finder
  rw [st64_sub_of_lt _ _ (by omega) (by omega), st64_sub_of_lt _ _ h2 h8,
    st64_sub_of_lt _ _ (by omega) (by omega), st64_sub_of_lt _ _ h5 h8]
  simp only []
  split_ifs <;> omega

/-- C18: the search comparator agrees with the sort order.  For a needle and
entries `a`, `b` with `_export_sorter (a, b) = -1`, the value of `_export_finder`
on `a` is at most its value on `b`; `_export_finder` is 0 on an entry exactly
when the entry has the kind and the index of the needle; so along a sequence
ordered by `_export_sorter` the values of `_export_finder` never decrease. -/
theorem export_finder_agrees (n : search_fields) (hn : n.InRange) :
    (∀ a b : RBinWasmExportEntry, a.InRange → b.InRange → _export_sorter a b = -1 →
        _export_finder a n ≤ _export_finder b n) ∧
      (∀ e : RBinWasmExportEntry, e.InRange →
        (_export_finder e n = 0 ↔ (e.kind = n.kind ∧ e.index = n.index))) ∧
      (∀ v : List RBinWasmExportEntry, (∀ e ∈ v, e.InRange) →
        v.Pairwise (fun a b => _export_sorter a b = -1) →
        v.Pairwise (fun a b => _export_finder a n ≤ _export_finder b n)) := by
  have hmono : ∀ a b : RBinWasmExportEntry, a.InRange → b.InRange →
      _export_sorter a b = -1 → _export_finder a n ≤ _export_finder b n := by
    intro a b ha hb h
    exact export_finder_le_of_keyLe n hn a b ha hb
      ((export_sorter_eq_neg_one a b ha hb).mp h)
  refine ⟨hmono, fun e he => export_finder_zero e n he hn, ?_⟩
  intro v hv hs
  induction v with
  | nil => exact List.Pairwise.nil
  | cons x xs ih =>
    obtain ⟨hx, hrest⟩ := List.pairwise_cons.mp hs
    have hxs : ∀ e ∈ xs, e.InRange := fun e he => hv e (List.mem_cons_of_mem x he)
    refine List.pairwise_cons.mpr ⟨?_, ih hxs hrest⟩
    intro y hy
    exact hmono x y (hv x (List.mem_cons_self x xs)) (hxs y hy) (hx y hy)

theorem export_finder_agrees_witness :
    (search_fields.mk 0 7).InRange ∧
    (∀ a b : RBinWasmExportEntry, a.InRange → b.InRange → _export_sorter a b = -1 →
        _export_finder a ⟨0, 7⟩ ≤ _export_finder b ⟨0, 7⟩) ∧
      (∀ e : RBinWasmExportEntry, e.InRange →
        (_export_finder e ⟨0, 7⟩ = 0 ↔
          (e.kind = (search_fields.mk 0 7).kind ∧ e.index = (search_fields.mk 0 7).index))) ∧
      (∀ v : List RBinWasmExportEntry, (∀ e ∈ v, e.InRange) →
        v.Pairwise (fun a b => _export_sorter a b = -1) →
        v.Pairwise (fun a b => _export_finder a ⟨0, 7⟩ ≤ _export_finder b ⟨0, 7⟩)) :=
  ⟨by decide, export_finder_agrees ⟨0, 7⟩ (by decide)⟩

/-- The values of `_export_finder` for the needle (Function, 7) along the sorted
form of `exportsSharing`. -/
theorem export_finder_along_sorted_example :
    (r_pvector_sort exportsSharing _export_sorter).map (fun e => _export_finder e ⟨0, 7⟩) =
        [-1, 0, 0, 0] ∧
      (r_pvector_sort exportsWithTie _export_sorter).map (fun e => _export_finder e ⟨0, 7⟩) =
        [-1, 0, 0, 1] := by
  decide

/-! ## `getoffset` and the function indices of `symbols` -/

/-- In `mixedModule` the code bodies have the function indices 1, 2 and 3.
For the index 1 `getname` answers with the debug name of the function that
`symbols` places at `0x100`, and `getoffset` with the address `0x10a` of the
function of index 2; for the index 3 `getoffset` answers `-1`. -/
theorem getoffset_getname_mixed_example :
    (Option.bind (symbols mixedModule) (fun l => l[4]?)).map (fun s => (s.name, s.vaddr)) =
        some (some "helper", 0x100) ∧
      (Option.bind (symbols mixedModule) (fun l => l[5]?)).map (fun s => (s.name, s.vaddr)) =
        some (some "fcn.2", 0x10a) ∧
      getname mixedModule TYPE_FCN 1 = some "helper" ∧
      getoffset mixedModule TYPE_FCN 1 = 0x10a ∧
      getoffset mixedModule TYPE_FCN 2 = 0x10e ∧
      getoffset mixedModule TYPE_FCN 3 = -1 := by
  decide

/-! ## The type tags of imports -/

/-- C20, as the code has it: for an import of kind Function, Table or Global
the type tag of the symbol that `symbols` emits for it equals the type tag of
the record that `imports` emits for it; for an import of kind Memory the symbol
has the tag `MEMORY` and the record has the tag `MEM`. -/
theorem import_type_tags (bin : RBinWasmObj) (codes : List RBinWasmCodeEntry)
    (imps : List RBinWasmImportEntry) (exports : List RBinWasmExportEntry)
    (hc : bin.codes = some codes) (hi : bin.imports = some imps)
    (he : bin.exports = some exports) :
    ∃ syms recs, symbols bin = some syms ∧ imports bin = some recs ∧
      ∀ (i : Nat) (imp : RBinWasmImportEntry), imps[i]? = some imp →
        ∃ s r, syms[i]? = some s ∧ recs[i]? = some r ∧
          ((imp.kind = R_BIN_WASM_EXTERNALKIND_Function ∨
              imp.kind = R_BIN_WASM_EXTERNALKIND_Table ∨
              imp.kind = R_BIN_WASM_EXTERNALKIND_Global) → s.type = r.type) ∧
          (imp.kind = R_BIN_WASM_EXTERNALKIND_Memory →
            s.type = some "MEMORY" ∧ r.type = some "MEM") := by
  refine ⟨_, _, symbols_eq bin codes imps exports hc hi he, imports_eq bin imps hi, ?_⟩
  intro i imp himp
  obtain ⟨syms, hsyms, _, hget⟩ :=
    symbols_getElem_import bin codes imps exports hc hi he i imp himp
  rw [symbols_eq bin codes imps exports hc hi he] at hsyms
  rw [Option.some.inj hsyms]
  refine ⟨_, import_record imp 0, hget, ?_, ?_, ?_⟩
  · rw [List.getElem?_map, himp]
    rfl
  · intro hk
    simp only [import_symbol, import_record]
    rcases hk with hk | hk | hk <;> rw [hk] <;> decide
  · intro hk
    simp only [import_symbol, import_record]
    rw [hk]
    decide

theorem import_type_tags_witness :
    ∃ syms recs, symbols mixedModule = some syms ∧ imports mixedModule = some recs ∧
      ∀ (i : Nat) (imp : RBinWasmImportEntry), mixedImports[i]? = some imp →
        ∃ s r, syms[i]? = some s ∧ recs[i]? = some r ∧
          ((imp.kind = R_BIN_WASM_EXTERNALKIND_Function ∨
              imp.kind = R_BIN_WASM_EXTERNALKIND_Table ∨
              imp.kind = R_BIN_WASM_EXTERNALKIND_Global) → s.type = r.type) ∧
          (imp.kind = R_BIN_WASM_EXTERNALKIND_Memory →
            s.type = some "MEMORY" ∧ r.type = some "MEM") :=
  import_type_tags mixedModule mixedCodes mixedImports mixedExports rfl rfl rfl

/-- C20 fails as stated: for the memory import of `mixedModule`, at position
0, the symbol of `symbols` has the type tag `MEMORY` and the record of `imports`
has the type tag `MEM`. -/
theorem memory_import_tags_differ :
    mixedImports[0]? = some ⟨"env", "mem", 2⟩ ∧
      (Option.bind (symbols mixedModule) (fun l => l[0]?)).map (fun s => s.type) =
        some (some "MEMORY") ∧
      (Option.bind (imports mixedModule) (fun l => l[0]?)).map (fun r => r.type) =
        some (some "MEM") ∧
      (Option.bind (symbols mixedModule) (fun l => l[0]?)).map (fun s => s.type) ≠
        (Option.bind (imports mixedModule) (fun l => l[0]?)).map (fun r => r.type) := by
  decide

end BinWasm
